import Mathlib

/-
Verification development for the StarkMate matchmaking engine.

The repository's visible matchmaking code is the HTTP glue in
`src/backend/modules/matchmaking/routes.rs`; the service it calls
(`MatchmakingService`: registry, queue partitions, pairing engine, match
store) is not part of the visible sources, so those components are
modelled from the specification (each such definition's doc comment says
so).  The HTTP layer (`get_status` below) is embedded directly from
`routes.rs`.
-/

namespace StarkMate

/-- Player value type, from `routes.rs` (`Player { wallet_address, elo, join_time }`);
timestamps are modelled as natural numbers. -/
structure Player where
  wallet_address : String
  elo : Nat
  join_time : Nat
deriving DecidableEq

/-- Match kind, from `routes.rs` / spec §3: `Open` (public ELO queue) or
`Invite` (direct invite to a specific counterpart). -/
inductive MatchType where
  | Open
  | Invite
deriving DecidableEq

/-- Request lifecycle status, modelled from the spec §3:
`Waiting`, `Matched`, `Cancelled`, `Expired`. -/
inductive Status where
  | Waiting
  | Matched
  | Cancelled
  | Expired
deriving DecidableEq

/-- Matchmaking request, from `routes.rs`
(`MatchRequest { id, player, match_type, invite_address, max_elo_diff }`);
UUIDs are modelled as engine-generated natural numbers. -/
structure MatchRequest where
  id : Nat
  player : Player
  match_type : MatchType
  invite_address : Option String
  max_elo_diff : Option Nat
deriving DecidableEq

/-- Finalized match record. Modelled from the spec: unique id, the two
resolved MatchRequest ids, the match kind that produced it, creation time. -/
structure MatchRecord where
  id : Nat
  req_a : Nat
  req_b : Nat
  kind : MatchType
  created_at : Nat
deriving DecidableEq

/-- Modelled from the spec: engine default ELO gap bound used when a request
supplies no `max_elo_diff` (§4.3; exact constant is an implementation choice). -/
def DEFAULT_ELO_DIFF : Nat := 100

/-- Modelled from the spec: linear widening rate of the ELO bound per unit of
wait time (§4.3; exact constant is an implementation choice). -/
def WIDEN_RATE : Nat := 1

/-- Modelled from the spec: maximum cap of the widened ELO bound (§4.3). -/
def MAX_WIDEN_CAP : Nat := 500

/-- Modelled from the spec: wait time after which an expiration sweep
transitions a Waiting request to Expired (§5; constant is a choice). -/
def EXPIRE_TIMEOUT : Nat := 3600

/-- Widening function with explicit rate and cap: a base bound grows linearly
with wait time, capped. Modelled from the spec §4.3 ("deterministic,
monotonic, bounded by a maximum cap"). -/
def widenWith (rate cap base wait : Nat) : Nat := min (base + rate * wait) cap

/-- The engine's widening function at the fixed rate and cap. -/
def widen (base wait : Nat) : Nat := widenWith WIDEN_RATE MAX_WIDEN_CAP base wait

/-- Supplied `max_elo_diff`, or the engine default when absent (spec §4.3). -/
def boundOf (r : MatchRequest) : Nat := r.max_elo_diff.getD DEFAULT_ELO_DIFF

/-- Elapsed wait time of a request at time `now` (truncated subtraction). -/
def waitOf (now : Nat) (r : MatchRequest) : Nat := now - r.player.join_time

/-- A single request's widened bound at time `now`. -/
def widenedBound (now : Nat) (r : MatchRequest) : Nat :=
  widen (boundOf r) (waitOf now r)

/-- Modelled from the spec §4.3: the effective bound for a pair is the
minimum of each request's bound, each widened over its own wait time. -/
def effectiveBound (now : Nat) (a b : MatchRequest) : Nat :=
  min (widenedBound now a) (widenedBound now b)

/-- Absolute ELO difference of two requests (over Nat). -/
def eloDiff (a b : MatchRequest) : Nat :=
  max a.player.elo b.player.elo - min a.player.elo b.player.elo

/-- Modelled from the spec §4.3 compatibility rule for Open requests:
`|A.elo - B.elo| <= effective_bound(A, B)`. -/
def compatible (now : Nat) (a b : MatchRequest) : Bool :=
  decide (eloDiff a b ≤ effectiveBound now a b)

/-- Modelled from the spec §4.3: find the earliest-joined compatible
counterpart of `a` in a FIFO-ordered snapshot and remove it, keeping the
order of the remaining requests. -/
def extractFirst (now : Nat) (a : MatchRequest) :
    List MatchRequest → Option (MatchRequest × List MatchRequest)
  | [] => none
  | b :: rest =>
      if compatible now a b then some (b, rest)
      else
        match extractFirst now a rest with
        | some (c, rest') => some (c, b :: rest')
        | none => none

/-- Modelled from the spec §4.3 selection policy, fuel-indexed for structural
recursion (the fuel is always instantiated with the snapshot length, which
suffices): scan the snapshot oldest-first; pair the oldest request that has a
compatible counterpart with its earliest-joined compatible counterpart,
remove both, and continue on the remaining requests; requests that find no
counterpart are left over. Returns the emitted pairs (in emission order)
and the leftover snapshot. -/
def pairStep (now : Nat) : Nat → List MatchRequest →
    List (MatchRequest × MatchRequest) × List MatchRequest
  | 0, l => ([], l)
  | _ + 1, [] => ([], [])
  | fuel + 1, a :: rest =>
      match extractFirst now a rest with
      | some (b, rest') =>
          let pr := pairStep now fuel rest'
          ((a, b) :: pr.1, pr.2)
      | none =>
          let pr := pairStep now fuel rest
          (pr.1, a :: pr.2)

/-- A full pairing pass over a partition snapshot (spec §4.3). -/
def pairAll (now : Nat) (l : List MatchRequest) :
    List (MatchRequest × MatchRequest) × List MatchRequest :=
  pairStep now l.length l

/-- Reference selection function, transcribed from the claim's words: scan
oldest-first; for the oldest request that has a compatible counterpart,
select the earliest-joined compatible counterpart (the first hit in the
FIFO-ordered snapshot). Returns only the selected pair. -/
def selectPairFIFO (now : Nat) : List MatchRequest →
    Option (MatchRequest × MatchRequest)
  | [] => none
  | a :: rest =>
      match rest.find? (fun b => compatible now a b) with
      | some b => some (a, b)
      | none => selectPairFIFO now rest

/-- Registry entry. Modelled from the spec §4.1: the canonical record of a
request, its current status, and the Match reference set on transition to
Matched. -/
structure RegEntry where
  req : MatchRequest
  status : Status
  matchRef : Option Nat
deriving DecidableEq

/-- Registry error taxonomy, modelled from the spec §4.1/§7. -/
inductive RegistryError where
  | NotFound
  | DuplicateId
  | InvalidTransition
deriving DecidableEq

/-- Modelled from the spec §4.1: `transition(id, new_status, optional Match
reference)` atomically advances the status only if the current status is
`Waiting`; fails with `InvalidTransition` if the request is already resolved
and with `NotFound` if the id is unknown. -/
def transition (reg : List RegEntry) (i : Nat) (st : Status) (ref : Option Nat) :
    Except RegistryError (List RegEntry) :=
  match reg.find? (fun e => e.req.id == i) with
  | none => .error .NotFound
  | some e =>
      if e.status = Status.Waiting then
        .ok (reg.map (fun e' =>
          if e'.req.id == i then { e' with status := st, matchRef := ref } else e'))
      else .error .InvalidTransition

/-- Whole-engine state. Modelled from the spec §2: Request Registry, one
Queue Partition per match kind, Match Store, and the id generators (UUIDs
are modelled as counters, which keeps engine-generated ids fresh). -/
structure EngineState where
  registry : List RegEntry
  openQueue : List MatchRequest
  inviteQueue : List MatchRequest
  store : List MatchRecord
  nextId : Nat
  nextMatchId : Nat
deriving DecidableEq

/-- The empty initial engine state. -/
def initState : EngineState := ⟨[], [], [], [], 0, 0⟩

/-- The Queue Partition selected by a match kind (spec §4.2). -/
def queueFor (s : EngineState) : MatchType → List MatchRequest
  | .Open => s.openQueue
  | .Invite => s.inviteQueue

/-- Replace the Queue Partition of one match kind. -/
def setQueue (s : EngineState) : MatchType → List MatchRequest → EngineState
  | .Open, q => { s with openQueue := q }
  | .Invite, q => { s with inviteQueue := q }

/-- Idempotent removal of a request id from one partition (spec §4.2:
removing an absent id is a no-op). -/
def removeFromQueue (s : EngineState) (mt : MatchType) (i : Nat) : EngineState :=
  setQueue s mt ((queueFor s mt).filter (fun r => r.id != i))

/-- Flatten a list of pairs into the list of their members, in order. -/
def pairsFlat : List (MatchRequest × MatchRequest) → List MatchRequest
  | [] => []
  | p :: rest => p.1 :: p.2 :: pairsFlat rest

/-- The request ids occurring in a list of pairs, in order. -/
def pairIds (ps : List (MatchRequest × MatchRequest)) : List Nat :=
  (pairsFlat ps).map (fun r => r.id)

/-- Match id assigned to request id `i` by the pairing pass that emitted
`ps`, numbering the emitted pairs consecutively from `k`. -/
def assignOf : List (MatchRequest × MatchRequest) → Nat → Nat → Option Nat
  | [], _, _ => none
  | p :: rest, k, i =>
      if i = p.1.id ∨ i = p.2.id then some k else assignOf rest (k + 1) i

/-- Match records created for the emitted pairs, with consecutive ids
starting at `k` (spec §4.3: a Match referencing both requests). -/
def mkMatches (now : Nat) : List (MatchRequest × MatchRequest) → Nat → List MatchRecord
  | [], _ => []
  | p :: rest, k => ⟨k, p.1.id, p.2.id, .Open, now⟩ :: mkMatches now rest (k + 1)

/-- Modelled from the spec §4.3: finalize a pairing pass over the Open
partition — the emitted pairs leave the partition, both members of each pair
transition to `Matched` with their Match reference, and a Match record per
pair enters the Match Store; all in one atomic critical section. -/
def applyPairing (now : Nat) (s : EngineState) : EngineState :=
  let pr := pairAll now s.openQueue
  { s with
    openQueue := pr.2
    registry := s.registry.map (fun e =>
      match assignOf pr.1 s.nextMatchId e.req.id with
      | some mid => { e with status := Status.Matched, matchRef := some mid }
      | none => e)
    store := s.store ++ mkMatches now pr.1 s.nextMatchId
    nextMatchId := s.nextMatchId + pr.1.length }

/-- Modelled from the spec §4.4/§2: `join_queue` admits a request (fresh
engine-generated id, registered `Waiting`, enqueued at the tail of the
partition of its kind) and immediately triggers a pairing pass on the Open
partition when the request is Open. Returns the new state and the id. -/
def joinQueue (now : Nat) (wallet : String) (elo : Nat) (mt : MatchType)
    (invAddr : Option String) (maxDiff : Option Nat) (s : EngineState) :
    EngineState × Nat :=
  let req : MatchRequest := ⟨s.nextId, ⟨wallet, elo, now⟩, mt, invAddr, maxDiff⟩
  let s1 : EngineState :=
    { s with nextId := s.nextId + 1
             registry := s.registry ++ [⟨req, Status.Waiting, none⟩] }
  let s2 := setQueue s1 mt (queueFor s1 mt ++ [req])
  let s3 := if mt = MatchType.Open then applyPairing now s2 else s2
  (s3, req.id)

/-- Modelled from the spec §4.4: `cancel_request` — if the id is registered
and `Waiting`, transition it to `Cancelled` and remove it from its
partition, returning true; otherwise leave the state unchanged and return
false (not found or already resolved is a normal negative outcome). -/
def cancelRequest (i : Nat) (s : EngineState) : EngineState × Bool :=
  match s.registry.find? (fun e => e.req.id == i) with
  | some e =>
      if e.status = Status.Waiting then
        (removeFromQueue
          { s with registry := s.registry.map (fun e' =>
              if e'.req.id == i then { e' with status := Status.Cancelled } else e') }
          e.req.match_type i, true)
      else (s, false)
  | none => (s, false)

/-- Modelled from the spec §4.3: `accept_private_invite` — look up the
inviter's request; if absent or already resolved return none; otherwise
synthesize the accepting player's request, resolve both to `Matched`
atomically (the inviter leaves its partition; the accepter never enters
one), create the Match, and return it. No ELO bound is checked. -/
def acceptPrivateInvite (now : Nat) (inviterId : Nat) (wallet : String)
    (elo : Nat) (s : EngineState) : EngineState × Option MatchRecord :=
  match s.registry.find? (fun e => e.req.id == inviterId) with
  | some e =>
      if e.status = Status.Waiting then
        let accReq : MatchRequest := ⟨s.nextId, ⟨wallet, elo, now⟩, MatchType.Invite, none, none⟩
        let m : MatchRecord := ⟨s.nextMatchId, inviterId, accReq.id, MatchType.Invite, now⟩
        let s1 : EngineState :=
          { s with
            registry := (s.registry.map (fun e' =>
                if e'.req.id == inviterId then
                  { e' with status := Status.Matched, matchRef := some m.id }
                else e')) ++ [⟨accReq, Status.Matched, some m.id⟩]
            store := s.store ++ [m]
            nextId := s.nextId + 1
            nextMatchId := s.nextMatchId + 1 }
        (removeFromQueue s1 e.req.match_type inviterId, some m)
      else (s, none)
  | none => (s, none)

/-- True when a Waiting request has outlived the expiration timeout. -/
def staleAt (now : Nat) (r : MatchRequest) : Bool :=
  decide (EXPIRE_TIMEOUT ≤ now - r.player.join_time)

/-- Modelled from the spec §5: the periodic expiration sweep — every stale
`Waiting` request transitions to `Expired` and leaves its partition, with
the same atomic discipline as cancellation. -/
def expireSweep (now : Nat) (s : EngineState) : EngineState :=
  { s with
    registry := s.registry.map (fun e =>
      if e.status = Status.Waiting ∧ staleAt now e.req = true then
        { e with status := Status.Expired }
      else e)
    openQueue := s.openQueue.filter (fun r => !staleAt now r)
    inviteQueue := s.inviteQueue.filter (fun r => !staleAt now r) }

/-- Point-in-time queue view, modelled from the spec §3: a position for a
`Waiting` request, or the Match id once `Matched`. -/
inductive QueueStatus where
  | waiting (position : Nat)
  | matched (matchId : Nat)
deriving DecidableEq

/-- Modelled from the spec §4.4: `get_queue_status` — a position for a
`Waiting` request, the Match reference for a `Matched` one, nothing for a
cancelled/expired/unknown id. -/
def getQueueStatus (s : EngineState) (i : Nat) : Option QueueStatus :=
  match s.registry.find? (fun e => e.req.id == i) with
  | some e =>
      match e.status with
      | Status.Waiting =>
          some (QueueStatus.waiting
            ((queueFor s e.req.match_type).findIdx (fun r => r.id == i) + 1))
      | Status.Matched => e.matchRef.map QueueStatus.matched
      | _ => none
  | none => none

/-- Modelled from the spec §4.4: `get_match` — pure read of the Match Store. -/
def getMatch (s : EngineState) (i : Nat) : Option MatchRecord :=
  s.store.find? (fun m => m.id == i)

/-- One atomic facade operation (spec §5: each compound operation executes
as one atomic unit; concurrency is modelled as arbitrary interleavings of
these atomic steps). -/
inductive Op where
  | join (now : Nat) (wallet : String) (elo : Nat) (mt : MatchType)
      (invAddr : Option String) (maxDiff : Option Nat)
  | cancel (i : Nat)
  | accept (now : Nat) (inviterId : Nat) (wallet : String) (elo : Nat)
  | sweep (now : Nat)

/-- Apply one atomic facade operation to the engine state. -/
def applyOp : Op → EngineState → EngineState
  | .join now w el mt ia md, s => (joinQueue now w el mt ia md s).1
  | .cancel i, s => (cancelRequest i s).1
  | .accept now i w el, s => (acceptPrivateInvite now i w el s).1
  | .sweep now, s => expireSweep now s

/-- Run a sequence of atomic facade operations (an interleaving of callers). -/
def runOps : List Op → EngineState → EngineState
  | [], s => s
  | op :: rest, s => runOps rest (applyOp op s)

/-- Registry ids, in registry order. -/
def regIds (s : EngineState) : List Nat := s.registry.map (fun e => e.req.id)

/-- The request ids referenced by a list of match records, in order. -/
def refsOf : List MatchRecord → List Nat
  | [] => []
  | m :: rest => m.req_a :: m.req_b :: refsOf rest

/-- All request ids referenced by the Match Store. -/
def matchRefIds (s : EngineState) : List Nat := refsOf s.store

/-- Number of Match records in the store referencing request id `i`
(counting a doubly-referencing record twice). -/
def countRefs (s : EngineState) (i : Nat) : Nat := (matchRefIds s).count i

/-- Current registry status of a request id, if registered. -/
def statusOf (s : EngineState) (i : Nat) : Option Status :=
  (s.registry.find? (fun e => e.req.id == i)).map (fun e => e.status)

/-- Whether request id `i` is present in the partition of kind `mt`. -/
def idInQueue (s : EngineState) (mt : MatchType) (i : Nat) : Bool :=
  (queueFor s mt).any (fun r => r.id == i)

/-- HTTP response body of the status endpoint, from `routes.rs`
(`StatusResponse { status, queue_status }`). -/
structure StatusResponse where
  status : String
  queue_status : Option QueueStatus
deriving DecidableEq

/-- The `get_status` handler from `routes.rs` (lines 71–88), embedded over
the service result: `Some(status)` yields HTTP 200 with the fixed string
"In queue" and the queue status; `None` yields HTTP 404 with
"Request not found". The pair is (HTTP status code, body). -/
def get_status (result : Option QueueStatus) : Nat × StatusResponse :=
  match result with
  | some st => (200, ⟨"In queue", some st⟩)
  | none => (404, ⟨"Request not found", none⟩)

/-- Elements with equal images under `f` are equal when the mapped list has
no duplicates. -/
theorem nodup_map_inj {α β : Type} {f : α → β} {l : List α}
    (h : (l.map f).Nodup) :
    ∀ a ∈ l, ∀ b ∈ l, f a = f b → a = b := by
  induction l with
  | nil => intro a ha; simp at ha
  | cons x xs ih =>
    simp only [List.map_cons, List.nodup_cons] at h
    intro a ha b hb hfab
    rcases List.mem_cons.1 ha with rfl | ha' <;> rcases List.mem_cons.1 hb with rfl | hb'
    · rfl
    · exact absurd (hfab ▸ List.mem_map_of_mem f hb') h.1
    · exact absurd (hfab ▸ List.mem_map_of_mem f ha') (by simpa using h.1)
    · exact ih h.2 a ha' b hb' hfab

/-- `extractFirst` splits its input around the extracted counterpart: the
counterpart is compatible, everything skipped before it is not, and the
remainder keeps the original order. -/
theorem extractFirst_eq_some {now : Nat} {a b : MatchRequest}
    {l l' : List MatchRequest}
    (h : extractFirst now a l = some (b, l')) :
    ∃ l₁ l₂, l = l₁ ++ b :: l₂ ∧ l' = l₁ ++ l₂ ∧ compatible now a b = true ∧
      ∀ c ∈ l₁, compatible now a c = false := by
  induction l generalizing b l' with
  | nil => simp [extractFirst] at h
  | cons x xs ih =>
    cases hc : compatible now a x with
    | true =>
      simp only [extractFirst, hc, if_pos rfl] at h
      obtain ⟨rfl, rfl⟩ := Prod.mk.injEq .. ▸ Option.some.inj h
      exact ⟨[], xs, rfl, rfl, hc, by intro c hcmem; simp at hcmem⟩
    | false =>
      simp only [extractFirst, hc] at h
      cases he : extractFirst now a xs with
      | none => rw [he] at h; simp at h
      | some p =>
        obtain ⟨c, rest'⟩ := p
        rw [he] at h
        simp only [Option.some.injEq, Prod.mk.injEq] at h
        obtain ⟨rfl, rfl⟩ := h
        obtain ⟨l₁, l₂, rfl, rfl, hcb, hprev⟩ := ih he
        refine ⟨x :: l₁, l₂, rfl, rfl, hcb, ?_⟩
        intro d hd
        rcases List.mem_cons.1 hd with rfl | hd'
        · exact hc
        · exact hprev d hd'

/-- The extracted counterpart and remainder permute the input. -/
theorem extractFirst_perm {now : Nat} {a b : MatchRequest}
    {l l' : List MatchRequest}
    (h : extractFirst now a l = some (b, l')) : l.Perm (b :: l') := by
  obtain ⟨l₁, l₂, rfl, rfl, _, _⟩ := extractFirst_eq_some h
  exact List.perm_middle

/-- `extractFirst` removes exactly one element. -/
theorem extractFirst_length {now : Nat} {a b : MatchRequest}
    {l l' : List MatchRequest}
    (h : extractFirst now a l = some (b, l')) : l'.length + 1 = l.length := by
  obtain ⟨l₁, l₂, rfl, rfl, _, _⟩ := extractFirst_eq_some h
  simp [Nat.add_assoc, Nat.add_comm 1 l₂.length]

/-- When `extractFirst` fails, nothing in the snapshot is compatible. -/
theorem extractFirst_eq_none {now : Nat} {a : MatchRequest}
    {l : List MatchRequest}
    (h : extractFirst now a l = none) : ∀ b ∈ l, compatible now a b = false := by
  induction l with
  | nil => intro b hb; simp at hb
  | cons x xs ih =>
    intro b hb
    cases hc : compatible now a x with
    | true => simp [extractFirst, hc] at h
    | false =>
      simp only [extractFirst, hc] at h
      cases he : extractFirst now a xs with
      | none =>
        rcases List.mem_cons.1 hb with rfl | hb'
        · exact hc
        · exact ih he b hb'
      | some p => obtain ⟨c, r⟩ := p; rw [he] at h; simp at h

/-- The counterpart extracted by `extractFirst` is the one `find?` locates. -/
theorem extractFirst_find?_some {now : Nat} {a b : MatchRequest}
    {l l' : List MatchRequest}
    (h : extractFirst now a l = some (b, l')) :
    l.find? (fun x => compatible now a x) = some b := by
  obtain ⟨l₁, l₂, rfl, rfl, hcb, hprev⟩ := extractFirst_eq_some h
  rw [List.find?_append]
  have h1 : l₁.find? (fun x => compatible now a x) = none := by
    rw [List.find?_eq_none]
    intro x hx
    simp [hprev x hx]
  rw [h1]
  simp [List.find?_cons, hcb]

/-- When `extractFirst` fails, so does `find?`. -/
theorem extractFirst_find?_none {now : Nat} {a : MatchRequest}
    {l : List MatchRequest}
    (h : extractFirst now a l = none) :
    l.find? (fun x => compatible now a x) = none := by
  rw [List.find?_eq_none]
  intro x hx
  simp [extractFirst_eq_none h x hx]

/-- A pairing pass permutes the snapshot into the emitted pairs plus the
leftover requests. -/
theorem pairStep_perm (now : Nat) : ∀ (fuel : Nat) (l : List MatchRequest),
    l.Perm (pairsFlat (pairStep now fuel l).1 ++ (pairStep now fuel l).2) := by
  intro fuel
  induction fuel with
  | zero => intro l; simp [pairStep, pairsFlat]
  | succ fuel ih =>
    intro l
    cases l with
    | nil => simp [pairStep, pairsFlat]
    | cons a rest =>
      cases he : extractFirst now a rest with
      | none =>
        simp only [pairStep, he]
        exact ((ih rest).cons a).trans List.perm_middle.symm
      | some p =>
        obtain ⟨b, rest'⟩ := p
        simp only [pairStep, he, pairsFlat]
        exact ((extractFirst_perm he).cons a).trans (((ih rest').cons b).cons a)

/-- Every pair emitted by a pairing pass is compatible at pass time. -/
theorem pairStep_pairs_compatible (now : Nat) :
    ∀ (fuel : Nat) (l : List MatchRequest),
    ∀ p ∈ (pairStep now fuel l).1, compatible now p.1 p.2 = true := by
  intro fuel
  induction fuel with
  | zero => intro l p hp; simp [pairStep] at hp
  | succ fuel ih =>
    intro l p hp
    cases l with
    | nil => simp [pairStep] at hp
    | cons a rest =>
      cases he : extractFirst now a rest with
      | none =>
        simp only [pairStep, he] at hp
        exact ih rest p hp
      | some q =>
        obtain ⟨b, rest'⟩ := q
        simp only [pairStep, he, List.mem_cons] at hp
        rcases hp with rfl | hp'
        · obtain ⟨_, _, _, _, hcb, _⟩ := extractFirst_eq_some he
          exact hcb
        · exact ih rest' p hp'

/-- With enough fuel (the snapshot length always suffices), no two mutually
compatible requests both survive a pairing pass. -/
theorem pairStep_leftover_pairwise (now : Nat) :
    ∀ (fuel : Nat) (l : List MatchRequest), l.length ≤ fuel →
    (pairStep now fuel l).2.Pairwise (fun a b => compatible now a b = false) := by
  intro fuel
  induction fuel with
  | zero =>
    intro l hl
    have : l = [] := List.length_eq_zero.1 (Nat.le_zero.1 hl)
    subst this
    simp [pairStep]
  | succ fuel ih =>
    intro l hl
    cases l with
    | nil => simp [pairStep]
    | cons a rest =>
      have hrest : rest.length ≤ fuel := by simp at hl; omega
      cases he : extractFirst now a rest with
      | none =>
        simp only [pairStep, he]
        refine List.Pairwise.cons ?_ (ih rest hrest)
        intro b hb
        have hbrest : b ∈ rest :=
          (pairStep_perm now fuel rest).mem_iff.2 (List.mem_append_right _ hb)
        exact extractFirst_eq_none he b hbrest
      | some q =>
        obtain ⟨b, rest'⟩ := q
        have hlen : rest'.length ≤ fuel := by
          have := extractFirst_length he
          omega
        simp only [pairStep, he]
        exact ih rest' hlen

/-- The first pair a pairing pass emits is the one the reference FIFO
selection function picks. -/
theorem pairStep_head (now : Nat) :
    ∀ (fuel : Nat) (l : List MatchRequest), l.length ≤ fuel →
    (pairStep now fuel l).1.head? = selectPairFIFO now l := by
  intro fuel
  induction fuel with
  | zero =>
    intro l hl
    have : l = [] := List.length_eq_zero.1 (Nat.le_zero.1 hl)
    subst this
    simp [pairStep, selectPairFIFO]
  | succ fuel ih =>
    intro l hl
    cases l with
    | nil => simp [pairStep, selectPairFIFO]
    | cons a rest =>
      have hrest : rest.length ≤ fuel := by simp at hl; omega
      cases he : extractFirst now a rest with
      | none =>
        simp only [pairStep, he, selectPairFIFO, extractFirst_find?_none he]
        exact ih rest hrest
      | some q =>
        obtain ⟨b, rest'⟩ := q
        simp only [pairStep, he, selectPairFIFO, extractFirst_find?_some he]
        simp

theorem queueFor_open (s : EngineState) : queueFor s MatchType.Open = s.openQueue := rfl

theorem queueFor_invite (s : EngineState) :
    queueFor s MatchType.Invite = s.inviteQueue := rfl

theorem setQueue_registry (s : EngineState) (mt : MatchType) (q : List MatchRequest) :
    (setQueue s mt q).registry = s.registry := by cases mt <;> rfl

theorem setQueue_store (s : EngineState) (mt : MatchType) (q : List MatchRequest) :
    (setQueue s mt q).store = s.store := by cases mt <;> rfl

theorem setQueue_nextId (s : EngineState) (mt : MatchType) (q : List MatchRequest) :
    (setQueue s mt q).nextId = s.nextId := by cases mt <;> rfl

theorem setQueue_nextMatchId (s : EngineState) (mt : MatchType) (q : List MatchRequest) :
    (setQueue s mt q).nextMatchId = s.nextMatchId := by cases mt <;> rfl

theorem queueFor_setQueue_self (s : EngineState) (mt : MatchType) (q : List MatchRequest) :
    queueFor (setQueue s mt q) mt = q := by cases mt <;> rfl

theorem queueFor_setQueue_other (s : EngineState) {mt mt' : MatchType}
    (q : List MatchRequest) (h : mt' ≠ mt) :
    queueFor (setQueue s mt q) mt' = queueFor s mt' := by
  cases mt <;> cases mt' <;> first | rfl | exact absurd rfl h

theorem removeFromQueue_registry (s : EngineState) (mt : MatchType) (i : Nat) :
    (removeFromQueue s mt i).registry = s.registry := setQueue_registry _ _ _

theorem removeFromQueue_store (s : EngineState) (mt : MatchType) (i : Nat) :
    (removeFromQueue s mt i).store = s.store := setQueue_store _ _ _

theorem queueFor_removeFromQueue_self (s : EngineState) (mt : MatchType) (i : Nat) :
    queueFor (removeFromQueue s mt i) mt =
      (queueFor s mt).filter (fun r => r.id != i) := by
  cases mt <;> rfl

/-- `assignOf` fails exactly on the ids that occur in no emitted pair. -/
theorem assignOf_eq_none_iff (ps : List (MatchRequest × MatchRequest)) (k i : Nat) :
    assignOf ps k i = none ↔ i ∉ pairIds ps := by
  induction ps generalizing k with
  | nil => simp [assignOf, pairIds, pairsFlat]
  | cons p rest ih =>
    by_cases hip : i = p.1.id ∨ i = p.2.id
    · simp [assignOf, hip, pairIds, pairsFlat]
      rcases hip with h | h <;> simp [h]
    · simp only [assignOf, if_neg hip, ih, pairIds, pairsFlat, List.map_cons,
        List.mem_cons]
      push_neg at hip ⊢
      constructor
      · intro h
        exact ⟨hip.1, hip.2, h⟩
      · intro h
        exact h.2.2

/-- Ids of an emitted pair are assigned a match id. -/
theorem assignOf_isSome (ps : List (MatchRequest × MatchRequest)) (k i : Nat)
    (h : i ∈ pairIds ps) : ∃ mid, assignOf ps k i = some mid := by
  cases ha : assignOf ps k i with
  | none => exact absurd ((assignOf_eq_none_iff ps k i).1 ha) (by simp [h])
  | some mid => exact ⟨mid, rfl⟩

theorem refsOf_append (l₁ l₂ : List MatchRecord) :
    refsOf (l₁ ++ l₂) = refsOf l₁ ++ refsOf l₂ := by
  induction l₁ with
  | nil => rfl
  | cons m rest ih => simp [refsOf, ih]

/-- The match records built for a pass reference exactly the paired ids. -/
theorem mkMatches_refs (now : Nat) (ps : List (MatchRequest × MatchRequest)) (k : Nat) :
    refsOf (mkMatches now ps k) = pairIds ps := by
  induction ps generalizing k with
  | nil => rfl
  | cons p rest ih => simp [mkMatches, refsOf, pairIds, pairsFlat, ih]

/-- Ids of the match records built for a pass are consecutive from `k`. -/
theorem mkMatches_id_bounds (now : Nat) (ps : List (MatchRequest × MatchRequest)) (k : Nat) :
    ∀ m ∈ mkMatches now ps k, k ≤ m.id ∧ m.id < k + ps.length := by
  induction ps generalizing k with
  | nil => intro m hm; simp [mkMatches] at hm
  | cons p rest ih =>
    intro m hm
    simp only [mkMatches, List.mem_cons] at hm
    rcases hm with rfl | hm'
    · show k ≤ k ∧ k < k + (p :: rest).length
      simp only [List.length_cons]
      omega
    · have := ih (k + 1) m hm'
      simp only [List.length_cons]
      omega

theorem mkMatches_ids_nodup (now : Nat) (ps : List (MatchRequest × MatchRequest)) (k : Nat) :
    ((mkMatches now ps k).map (fun m => m.id)).Nodup := by
  induction ps generalizing k with
  | nil => simp [mkMatches]
  | cons p rest ih =>
    simp only [mkMatches, List.map_cons, List.nodup_cons]
    refine ⟨?_, ih (k + 1)⟩
    intro hk
    obtain ⟨m, hm, hmk⟩ := List.mem_map.1 hk
    have := mkMatches_id_bounds now rest (k + 1) m hm
    omega

/-- Mapping a function that keeps `req` fixed leaves the registry ids alone. -/
theorem regIds_map {f : RegEntry → RegEntry} (hf : ∀ e, (f e).req.id = e.req.id)
    (l : List RegEntry) :
    (l.map f).map (fun e => e.req.id) = l.map (fun e => e.req.id) := by
  induction l with
  | nil => rfl
  | cons e rest ih => simp [hf, ih]

/-- `find?` by request id commutes with mapping a function that keeps
request ids fixed. -/
theorem find?_entry_map {f : RegEntry → RegEntry} (hf : ∀ e, (f e).req.id = e.req.id)
    (l : List RegEntry) (i : Nat) :
    (l.map f).find? (fun e => e.req.id == i) =
      (l.find? (fun e => e.req.id == i)).map f := by
  rw [List.find?_map]
  have : ((fun e : RegEntry => e.req.id == i) ∘ f) = (fun e => e.req.id == i) := by
    funext e
    simp [hf e]
  rw [this]

/-- The engine-level invariant tying Registry, Queue Partitions and Match
Store together (spec §3/§4.2/§8): registry ids are distinct and below the id
generator; partitions hold exactly the Waiting requests of their kind,
without duplicates; match ids are distinct and below the match id generator;
every request id is referenced by at most one match record, and referenced
requests are Matched. -/
structure Inv (s : EngineState) : Prop where
  nodup_ids : (regIds s).Nodup
  ids_lt : ∀ e ∈ s.registry, e.req.id < s.nextId
  queue_kind : ∀ mt, ∀ r ∈ queueFor s mt, r.match_type = mt
  queue_reg : ∀ mt, ∀ r ∈ queueFor s mt,
    ∃ e ∈ s.registry, e.req = r ∧ e.status = Status.Waiting
  waiting_in_queue : ∀ e ∈ s.registry, e.status = Status.Waiting →
    e.req ∈ queueFor s e.req.match_type
  queue_nodup : ∀ mt, ((queueFor s mt).map (fun r => r.id)).Nodup
  match_ids_nodup : (s.store.map (fun m => m.id)).Nodup
  match_ids_lt : ∀ m ∈ s.store, m.id < s.nextMatchId
  refs_nodup : (matchRefIds s).Nodup
  refs_matched : ∀ i ∈ matchRefIds s,
    ∃ e ∈ s.registry, e.req.id = i ∧ e.status = Status.Matched

/-- Entries of a registry without duplicate ids are determined by their id. -/
theorem entry_inj {s : EngineState} (h : Inv s) :
    ∀ e₁ ∈ s.registry, ∀ e₂ ∈ s.registry, e₁.req.id = e₂.req.id → e₁ = e₂ :=
  nodup_map_inj h.nodup_ids

theorem inv_initState : Inv initState := by
  refine ⟨?_, ?_, ?_, ?_, ?_, ?_, ?_, ?_, ?_, ?_⟩
  · simp [initState, regIds]
  · intro e he; simp [initState] at he
  · intro mt r hr; cases mt <;> simp [initState, queueFor] at hr
  · intro mt r hr; cases mt <;> simp [initState, queueFor] at hr
  · intro e he; simp [initState] at he
  · intro mt; cases mt <;> simp [initState, queueFor]
  · simp [initState]
  · intro m hm; simp [initState] at hm
  · simp [initState, matchRefIds, refsOf]
  · intro i hi; simp [initState, matchRefIds, refsOf] at hi

/-- `applyPairing` written as one record update (the `let` unfolded). -/
theorem applyPairing_def (now : Nat) (s : EngineState) :
    applyPairing now s =
      { s with
        openQueue := (pairAll now s.openQueue).2
        registry := s.registry.map (fun e =>
          match assignOf (pairAll now s.openQueue).1 s.nextMatchId e.req.id with
          | some mid => { e with status := Status.Matched, matchRef := some mid }
          | none => e)
        store := s.store ++ mkMatches now (pairAll now s.openQueue).1 s.nextMatchId
        nextMatchId := s.nextMatchId + (pairAll now s.openQueue).1.length } := rfl

/-- A pairing pass preserves the engine invariant. -/
theorem inv_applyPairing {s : EngineState} (h : Inv s) (now : Nat) :
    Inv (applyPairing now s) := by
  rw [applyPairing_def]
  have hperm : s.openQueue.Perm
      (pairsFlat (pairAll now s.openQueue).1 ++ (pairAll now s.openQueue).2) :=
    pairStep_perm now _ _
  have hqn : ((s.openQueue).map (fun r => r.id)).Nodup := h.queue_nodup MatchType.Open
  have hPL := (hperm.map (fun r => r.id)).nodup hqn
  rw [List.map_append] at hPL
  obtain ⟨hPids, hLids, hdisj⟩ := List.nodup_append.1 hPL
  have hmemP : ∀ r ∈ pairsFlat (pairAll now s.openQueue).1, r ∈ s.openQueue :=
    fun r hr => hperm.mem_iff.2 (List.mem_append_left _ hr)
  have hmemL : ∀ r ∈ (pairAll now s.openQueue).2, r ∈ s.openQueue :=
    fun r hr => hperm.mem_iff.2 (List.mem_append_right _ hr)
  have hpaired : ∀ e ∈ s.registry, e.req.id ∈ pairIds (pairAll now s.openQueue).1 →
      e.req ∈ s.openQueue ∧ e.status = Status.Waiting := by
    intro e he hid
    obtain ⟨r, hr, hrid⟩ := List.mem_map.1 hid
    have hrq : r ∈ s.openQueue := hmemP r hr
    obtain ⟨e', he', hreq, hwait⟩ := h.queue_reg MatchType.Open r hrq
    have hee : e' = e := entry_inj h e' he' e he (by rw [hreq, hrid])
    subst hee
    exact ⟨hreq ▸ hrq, hwait⟩
  have hfreq : ∀ e : RegEntry,
      ((match assignOf (pairAll now s.openQueue).1 s.nextMatchId e.req.id with
        | some mid => { e with status := Status.Matched, matchRef := some mid }
        | none => e) : RegEntry).req = e.req := by
    intro e
    cases assignOf (pairAll now s.openQueue).1 s.nextMatchId e.req.id <;> rfl
  have hfid : ∀ e : RegEntry,
      ((match assignOf (pairAll now s.openQueue).1 s.nextMatchId e.req.id with
        | some mid => { e with status := Status.Matched, matchRef := some mid }
        | none => e) : RegEntry).req.id = e.req.id := fun e => by rw [hfreq]
  refine ⟨?_, ?_, ?_, ?_, ?_, ?_, ?_, ?_, ?_, ?_⟩
  · simp only [regIds]
    rw [regIds_map hfid]
    exact h.nodup_ids
  · intro e' he'
    obtain ⟨e, he, rfl⟩ := List.mem_map.1 he'
    show _ < s.nextId
    rw [hfid]
    exact h.ids_lt e he
  · intro mt r hr
    cases mt with
    | Open => exact h.queue_kind MatchType.Open r (hmemL r hr)
    | Invite => exact h.queue_kind MatchType.Invite r hr
  · intro mt r hr
    cases mt with
    | Open =>
      have hrq : r ∈ s.openQueue := hmemL r hr
      obtain ⟨e, he, hreq, hwait⟩ := h.queue_reg MatchType.Open r hrq
      refine ⟨(match assignOf (pairAll now s.openQueue).1 s.nextMatchId e.req.id with
        | some mid => { e with status := Status.Matched, matchRef := some mid }
        | none => e), List.mem_map_of_mem _ he, ?_⟩
      have hnone : assignOf (pairAll now s.openQueue).1 s.nextMatchId e.req.id = none := by
        rw [assignOf_eq_none_iff]
        intro hmem
        exact hdisj hmem (by
          rw [hreq]
          exact List.mem_map_of_mem _ hr)
      rw [hnone]
      exact ⟨hreq, hwait⟩
    | Invite =>
      obtain ⟨e, he, hreq, hwait⟩ := h.queue_reg MatchType.Invite r hr
      refine ⟨(match assignOf (pairAll now s.openQueue).1 s.nextMatchId e.req.id with
        | some mid => { e with status := Status.Matched, matchRef := some mid }
        | none => e), List.mem_map_of_mem _ he, ?_⟩
      have hnone : assignOf (pairAll now s.openQueue).1 s.nextMatchId e.req.id = none := by
        rw [assignOf_eq_none_iff]
        intro hmem
        have hopen := (hpaired e he hmem).1
        have h1 : e.req.match_type = MatchType.Open := h.queue_kind MatchType.Open _ hopen
        have h2 : e.req.match_type = MatchType.Invite := by
          rw [hreq]
          exact h.queue_kind MatchType.Invite r hr
        rw [h1] at h2
        exact MatchType.noConfusion h2
      rw [hnone]
      exact ⟨hreq, hwait⟩
  · intro e' he' hst
    obtain ⟨e, he, rfl⟩ := List.mem_map.1 he'
    cases ha : assignOf (pairAll now s.openQueue).1 s.nextMatchId e.req.id with
    | some mid =>
      simp only [ha] at hst
      exact Status.noConfusion hst
    | none =>
      simp only [ha]
      simp only [ha] at hst
      have hq := h.waiting_in_queue e he hst
      cases hmt : e.req.match_type with
      | Invite =>
        rw [hmt] at hq
        exact hq
      | Open =>
        rw [hmt] at hq
        have := hperm.mem_iff.1 hq
        rcases List.mem_append.1 this with hin | hin
        · exact absurd (List.mem_map_of_mem (fun r => r.id) hin)
            ((assignOf_eq_none_iff _ _ _).1 ha)
        · exact hin
  · intro mt
    cases mt with
    | Open => exact hLids
    | Invite => exact h.queue_nodup MatchType.Invite
  · show ((s.store ++ _).map (fun m => m.id)).Nodup
    rw [List.map_append, List.nodup_append]
    refine ⟨h.match_ids_nodup, mkMatches_ids_nodup now _ _, ?_⟩
    intro a ha hb
    obtain ⟨m, hm, rfl⟩ := List.mem_map.1 ha
    obtain ⟨m', hm', hmm⟩ := List.mem_map.1 hb
    have h1 := h.match_ids_lt m hm
    have h2 := (mkMatches_id_bounds now _ _ m' hm').1
    omega
  · intro m hm
    rcases List.mem_append.1 hm with hm' | hm'
    · have := h.match_ids_lt m hm'
      show m.id < s.nextMatchId + _
      omega
    · exact (mkMatches_id_bounds now _ _ m hm').2
  · show (refsOf (s.store ++ _)).Nodup
    rw [refsOf_append, mkMatches_refs, List.nodup_append]
    refine ⟨h.refs_nodup, hPids, ?_⟩
    intro i hi hip
    obtain ⟨e, he, hei, hst⟩ := h.refs_matched i hi
    have := (hpaired e he (hei ▸ hip)).2
    rw [hst] at this
    exact Status.noConfusion this
  · intro i hi
    show ∃ e ∈ s.registry.map _, e.req.id = i ∧ e.status = Status.Matched
    have hi' : i ∈ refsOf (s.store ++ mkMatches now (pairAll now s.openQueue).1 s.nextMatchId) := hi
    rw [refsOf_append, mkMatches_refs] at hi'
    rcases List.mem_append.1 hi' with hold | hnew
    · obtain ⟨e, he, hei, hst⟩ := h.refs_matched i hold
      refine ⟨(match assignOf (pairAll now s.openQueue).1 s.nextMatchId e.req.id with
        | some mid => { e with status := Status.Matched, matchRef := some mid }
        | none => e), List.mem_map_of_mem _ he, ?_⟩
      cases ha : assignOf (pairAll now s.openQueue).1 s.nextMatchId e.req.id <;>
        exact ⟨hei, by first | exact hst | rfl⟩
    · obtain ⟨r, hr, hrid⟩ := List.mem_map.1 hnew
      obtain ⟨e, he, hreq, hwait⟩ := h.queue_reg MatchType.Open r (hmemP r hr)
      obtain ⟨mid, hmid⟩ := assignOf_isSome (pairAll now s.openQueue).1 s.nextMatchId i
        (by
          rw [← hrid]
          exact List.mem_map_of_mem _ hr)
      refine ⟨(match assignOf (pairAll now s.openQueue).1 s.nextMatchId e.req.id with
        | some mid => { e with status := Status.Matched, matchRef := some mid }
        | none => e), List.mem_map_of_mem _ he, ?_⟩
      have heid : e.req.id = i := by rw [hreq, hrid]
      rw [heid, hmid]
      exact ⟨heid, rfl⟩

theorem queueFor_congr {s t : EngineState} (h1 : t.openQueue = s.openQueue)
    (h2 : t.inviteQueue = s.inviteQueue) : ∀ mt, queueFor t mt = queueFor s mt := by
  intro mt
  cases mt <;> simp [queueFor, h1, h2]

/-- A successful `find?` by id yields a member carrying that id. -/
theorem mem_find?_id {reg : List RegEntry} {i : Nat} {e : RegEntry}
    (hfind : reg.find? (fun e' => e'.req.id == i) = some e) :
    e ∈ reg ∧ e.req.id = i :=
  ⟨List.mem_of_find?_eq_some hfind, by simpa using List.find?_some hfind⟩

/-- The state right after admission of a fresh request (the enqueue half of
`join_queue`, before the triggered pairing pass). -/
def enqueueState (now : Nat) (w : String) (el : Nat) (mt : MatchType)
    (ia : Option String) (md : Option Nat) (s : EngineState) : EngineState :=
  setQueue
    { s with nextId := s.nextId + 1
             registry := s.registry ++
               [⟨⟨s.nextId, ⟨w, el, now⟩, mt, ia, md⟩, Status.Waiting, none⟩] }
    mt (queueFor s mt ++ [⟨s.nextId, ⟨w, el, now⟩, mt, ia, md⟩])

theorem joinQueue_fst (now : Nat) (w : String) (el : Nat) (mt : MatchType)
    (ia : Option String) (md : Option Nat) (s : EngineState) :
    (joinQueue now w el mt ia md s).1 =
      if mt = MatchType.Open then applyPairing now (enqueueState now w el mt ia md s)
      else enqueueState now w el mt ia md s := by
  cases mt <;> rfl

/-- Admission of a fresh request preserves the engine invariant. -/
theorem inv_enqueueState {s : EngineState} (h : Inv s) (now : Nat) (w : String)
    (el : Nat) (mt : MatchType) (ia : Option String) (md : Option Nat) :
    Inv (enqueueState now w el mt ia md s) := by
  set req : MatchRequest := ⟨s.nextId, ⟨w, el, now⟩, mt, ia, md⟩ with hreq
  have hqsub : ∀ mt', ∀ r ∈ queueFor s mt', r.id < s.nextId := by
    intro mt' r hr
    obtain ⟨e, he, hereq, _⟩ := h.queue_reg mt' r hr
    have := h.ids_lt e he
    rw [hereq] at this
    exact this
  have hregistry : (enqueueState now w el mt ia md s).registry =
      s.registry ++ [⟨req, Status.Waiting, none⟩] := setQueue_registry _ _ _
  have hqueue_self : queueFor (enqueueState now w el mt ia md s) mt =
      queueFor s mt ++ [req] := by
    unfold enqueueState
    rw [queueFor_setQueue_self]
  have hqueue_other : ∀ mt', mt' ≠ mt →
      queueFor (enqueueState now w el mt ia md s) mt' = queueFor s mt' := by
    intro mt' hne
    unfold enqueueState
    rw [queueFor_setQueue_other _ _ hne]
    exact queueFor_congr rfl rfl mt'
  have hqueue_cases : ∀ mt', queueFor (enqueueState now w el mt ia md s) mt' =
      if mt' = mt then queueFor s mt' ++ [req] else queueFor s mt' := by
    intro mt'
    by_cases hmt : mt' = mt
    · subst hmt
      rw [if_pos rfl, hqueue_self]
    · rw [if_neg hmt, hqueue_other mt' hmt]
  have hstore : (enqueueState now w el mt ia md s).store = s.store :=
    setQueue_store _ _ _
  have hnid : (enqueueState now w el mt ia md s).nextId = s.nextId + 1 :=
    setQueue_nextId _ _ _
  have hnmid : (enqueueState now w el mt ia md s).nextMatchId = s.nextMatchId :=
    setQueue_nextMatchId _ _ _
  refine ⟨?_, ?_, ?_, ?_, ?_, ?_, ?_, ?_, ?_, ?_⟩
  · show ((enqueueState now w el mt ia md s).registry.map (fun e => e.req.id)).Nodup
    rw [hregistry, List.map_append, List.nodup_append]
    refine ⟨h.nodup_ids, by simp, ?_⟩
    intro a ha hb
    simp only [List.map_cons, List.map_nil, List.mem_singleton] at hb
    obtain ⟨e, he, rfl⟩ := List.mem_map.1 ha
    have := h.ids_lt e he
    omega
  · intro e he
    rw [hregistry] at he
    rw [hnid]
    rcases List.mem_append.1 he with he' | he'
    · have := h.ids_lt e he'
      omega
    · simp only [List.mem_singleton] at he'
      subst he'
      simp [hreq]
  · intro mt' r hr
    rw [hqueue_cases] at hr
    by_cases hmt : mt' = mt
    · rw [if_pos hmt] at hr
      rcases List.mem_append.1 hr with hr' | hr'
      · exact h.queue_kind mt' r hr'
      · simp only [List.mem_singleton] at hr'
        subst hr'
        simp [hreq, hmt]
    · rw [if_neg hmt] at hr
      exact h.queue_kind mt' r hr
  · intro mt' r hr
    rw [hqueue_cases] at hr
    rw [hregistry]
    by_cases hmt : mt' = mt
    · rw [if_pos hmt] at hr
      rcases List.mem_append.1 hr with hr' | hr'
      · obtain ⟨e, he, hereq, hwait⟩ := h.queue_reg mt' r hr'
        exact ⟨e, List.mem_append_left _ he, hereq, hwait⟩
      · simp only [List.mem_singleton] at hr'
        subst hr'
        exact ⟨⟨req, Status.Waiting, none⟩, List.mem_append_right _ (by simp), rfl, rfl⟩
    · rw [if_neg hmt] at hr
      obtain ⟨e, he, hereq, hwait⟩ := h.queue_reg mt' r hr
      exact ⟨e, List.mem_append_left _ he, hereq, hwait⟩
  · intro e he hwait
    rw [hregistry] at he
    rw [hqueue_cases]
    rcases List.mem_append.1 he with he' | he'
    · have hq := h.waiting_in_queue e he' hwait
      by_cases hmt : e.req.match_type = mt
      · rw [if_pos hmt]
        exact List.mem_append_left _ hq
      · rw [if_neg hmt]
        exact hq
    · simp only [List.mem_singleton] at he'
      subst he'
      rw [if_pos rfl]
      exact List.mem_append_right _ (by simp)
  · intro mt'
    rw [hqueue_cases]
    by_cases hmt : mt' = mt
    · rw [if_pos hmt, List.map_append, List.nodup_append]
      refine ⟨h.queue_nodup mt', by simp, ?_⟩
      intro a ha hb
      simp only [List.map_cons, List.map_nil, List.mem_singleton] at hb
      obtain ⟨r, hrm, rfl⟩ := List.mem_map.1 ha
      have := hqsub mt' r hrm
      simp only [hb, hreq] at *
      omega
    · rw [if_neg hmt]
      exact h.queue_nodup mt'
  · rw [hstore]
    exact h.match_ids_nodup
  · intro m hm
    rw [hstore] at hm
    rw [hnmid]
    exact h.match_ids_lt m hm
  · show (refsOf (enqueueState now w el mt ia md s).store).Nodup
    rw [hstore]
    exact h.refs_nodup
  · intro i hi
    have hi' : i ∈ matchRefIds s := by
      revert hi
      show i ∈ refsOf (enqueueState now w el mt ia md s).store → _
      rw [hstore]
      exact id
    obtain ⟨e, he, hei, hst⟩ := h.refs_matched i hi'
    rw [hregistry]
    exact ⟨e, List.mem_append_left _ he, hei, hst⟩

theorem inv_joinQueue {s : EngineState} (h : Inv s) (now : Nat) (w : String)
    (el : Nat) (mt : MatchType) (ia : Option String) (md : Option Nat) :
    Inv (joinQueue now w el mt ia md s).1 := by
  rw [joinQueue_fst]
  by_cases hmt : mt = MatchType.Open
  · rw [if_pos hmt]
    exact inv_applyPairing (inv_enqueueState h now w el mt ia md) now
  · rw [if_neg hmt]
    exact inv_enqueueState h now w el mt ia md

/-- Transitioning one Waiting entry out of `Waiting` (to Cancelled, or to
Matched for an invite) and removing its id from its partition preserves the
invariant, provided the replacement status is not `Waiting` and the new
entry keeps the request.  This is the common core of `cancel_request`,
`accept_private_invite` and the expiration sweep for the registry/partition
part of the state. -/
theorem inv_resolveOne {s : EngineState} (h : Inv s) {e : RegEntry} {i : Nat}
    (hfind : s.registry.find? (fun e' => e'.req.id == i) = some e)
    (hwait : e.status = Status.Waiting)
    (g : RegEntry → RegEntry)
    (hg_req : ∀ e', (g e').req = e'.req)
    (hg_other : ∀ e', e'.req.id ≠ i → g e' = e')
    (hg_status : (g e).status ≠ Status.Waiting)
    (t : EngineState)
    (hreg : t.registry = s.registry.map g)
    (hqueue : ∀ mt, queueFor t mt =
      if mt = e.req.match_type then
        (queueFor s mt).filter (fun r => r.id != i)
      else queueFor s mt)
    (hnid : s.nextId ≤ t.nextId)
    (hstore : t.store = s.store)
    (hnmid : t.nextMatchId = s.nextMatchId) :
    Inv t := by
  obtain ⟨hemem, heid⟩ := mem_find?_id hfind
  have hg_id : ∀ e', (g e').req.id = e'.req.id := fun e' => by rw [hg_req]
  have huniq : ∀ e' ∈ s.registry, e'.req.id = i → e' = e := by
    intro e' he' hid
    exact entry_inj h e' he' e hemem (by rw [hid, heid])
  refine ⟨?_, ?_, ?_, ?_, ?_, ?_, ?_, ?_, ?_, ?_⟩
  · show (t.registry.map (fun e => e.req.id)).Nodup
    rw [hreg, regIds_map hg_id]
    exact h.nodup_ids
  · intro e' he'
    rw [hreg] at he'
    obtain ⟨e₀, he₀, rfl⟩ := List.mem_map.1 he'
    rw [hg_id]
    exact lt_of_lt_of_le (h.ids_lt e₀ he₀) hnid
  · intro mt r hr
    rw [hqueue] at hr
    by_cases hmt : mt = e.req.match_type
    · rw [if_pos hmt] at hr
      exact h.queue_kind mt r (List.mem_filter.1 hr).1
    · rw [if_neg hmt] at hr
      exact h.queue_kind mt r hr
  · intro mt r hr
    rw [hqueue] at hr
    rw [hreg]
    by_cases hmt : mt = e.req.match_type
    · rw [if_pos hmt] at hr
      obtain ⟨hrq, hrne⟩ := List.mem_filter.1 hr
      obtain ⟨e', he', hereq, hw⟩ := h.queue_reg mt r hrq
      have : g e' = e' := by
        apply hg_other
        rw [hereq]
        simpa using hrne
      exact ⟨g e', List.mem_map_of_mem g he', by rw [this]; exact ⟨hereq, hw⟩⟩
    · rw [if_neg hmt] at hr
      obtain ⟨e', he', hereq, hw⟩ := h.queue_reg mt r hr
      have : g e' = e' := by
        apply hg_other
        intro hid
        have := huniq e' he' hid
        subst this
        exact hmt (by rw [hereq]; exact (h.queue_kind mt r hr).symm)
      exact ⟨g e', List.mem_map_of_mem g he', by rw [this]; exact ⟨hereq, hw⟩⟩
  · intro e' he' hw
    rw [hreg] at he'
    obtain ⟨e₀, he₀, rfl⟩ := List.mem_map.1 he'
    have hne : e₀.req.id ≠ i := by
      intro hid
      have := huniq e₀ he₀ hid
      subst this
      exact hg_status (by rw [hw])
    rw [hg_other e₀ hne] at hw ⊢
    have hq := h.waiting_in_queue e₀ he₀ hw
    rw [hqueue]
    by_cases hmt : e₀.req.match_type = e.req.match_type
    · rw [if_pos hmt]
      exact List.mem_filter.2 ⟨hq, by simpa using hne⟩
    · rw [if_neg hmt]
      exact hq
  · intro mt
    rw [hqueue]
    by_cases hmt : mt = e.req.match_type
    · rw [if_pos hmt]
      exact List.Nodup.sublist
        (List.Sublist.map (fun r : MatchRequest => r.id) (List.filter_sublist _))
        (h.queue_nodup mt)
    · rw [if_neg hmt]
      exact h.queue_nodup mt
  · rw [hstore]
    exact h.match_ids_nodup
  · intro m hm
    rw [hstore] at hm
    rw [hnmid]
    exact h.match_ids_lt m hm
  · show (refsOf t.store).Nodup
    rw [hstore]
    exact h.refs_nodup
  · intro j hj
    have hj' : j ∈ matchRefIds s := by
      revert hj
      show j ∈ refsOf t.store → _
      rw [hstore]
      exact id
    obtain ⟨e₀, he₀, hei, hst⟩ := h.refs_matched j hj'
    have hne : e₀.req.id ≠ i := by
      intro hid
      have := huniq e₀ he₀ hid
      subst this
      rw [hst] at hwait
      exact Status.noConfusion hwait
    rw [hreg]
    exact ⟨g e₀, List.mem_map_of_mem g he₀, by rw [hg_other e₀ hne]; exact ⟨hei, hst⟩⟩

/-- `cancel_request` preserves the engine invariant. -/
theorem inv_cancelRequest {s : EngineState} (h : Inv s) (i : Nat) :
    Inv (cancelRequest i s).1 := by
  unfold cancelRequest
  cases hfind : s.registry.find? (fun e => e.req.id == i) with
  | none => exact h
  | some e =>
    dsimp only
    by_cases hst : e.status = Status.Waiting
    · rw [if_pos hst]
      refine inv_resolveOne h hfind hst
        (fun e' => if e'.req.id == i then { e' with status := Status.Cancelled } else e')
        (fun e' => by by_cases hc : (e'.req.id == i) = true <;> simp [hc])
        (fun e' hne => by simp [hne])
        (by
          obtain ⟨_, heid⟩ := mem_find?_id hfind
          simp [heid])
        _ ?_ ?_ ?_ ?_ ?_
      · cases hmtc : e.req.match_type <;>
          simp [removeFromQueue, setQueue]
      · intro mt
        cases hmtc : e.req.match_type <;> cases mt <;>
          simp [removeFromQueue, setQueue, queueFor]
      · cases hmtc : e.req.match_type <;>
          simp [removeFromQueue, setQueue]
      · cases hmtc : e.req.match_type <;>
          simp [removeFromQueue, setQueue]
      · cases hmtc : e.req.match_type <;>
          simp [removeFromQueue, setQueue]
    · rw [if_neg hst]
      exact h

/-- Core invariant preservation for a successful invite acceptance: the
inviter's entry transitions to Matched, the synthesized accepter enters the
registry already Matched, the Match enters the store, and the inviter
leaves its partition. -/
theorem inv_acceptCore {s : EngineState} (h : Inv s) {e : RegEntry} {i : Nat}
    (hfind : s.registry.find? (fun e' => e'.req.id == i) = some e)
    (hwait : e.status = Status.Waiting) (now : Nat) (w : String) (el : Nat) :
    Inv (removeFromQueue
      { s with
        registry := (s.registry.map (fun e' =>
            if e'.req.id == i then
              { e' with status := Status.Matched, matchRef := some s.nextMatchId }
            else e')) ++
          [⟨⟨s.nextId, ⟨w, el, now⟩, MatchType.Invite, none, none⟩,
            Status.Matched, some s.nextMatchId⟩]
        store := s.store ++ [⟨s.nextMatchId, i, s.nextId, MatchType.Invite, now⟩]
        nextId := s.nextId + 1
        nextMatchId := s.nextMatchId + 1 }
      e.req.match_type i) := by
  obtain ⟨hemem, heid⟩ := mem_find?_id hfind
  set g : RegEntry → RegEntry := fun e' =>
    if e'.req.id == i then
      { e' with status := Status.Matched, matchRef := some s.nextMatchId }
    else e' with hg
  set accE : RegEntry :=
    ⟨⟨s.nextId, ⟨w, el, now⟩, MatchType.Invite, none, none⟩,
      Status.Matched, some s.nextMatchId⟩ with hacc
  set m : MatchRecord := ⟨s.nextMatchId, i, s.nextId, MatchType.Invite, now⟩ with hm
  have hg_req : ∀ e', (g e').req = e'.req := by
    intro e'
    by_cases hc : e'.req.id = i <;> simp [hg, hc]
  have hg_id : ∀ e', (g e').req.id = e'.req.id := fun e' => by rw [hg_req]
  have hg_other : ∀ e', e'.req.id ≠ i → g e' = e' := by
    intro e' hne
    simp [hg, hne]
  have hg_self : g e = { e with status := Status.Matched, matchRef := some s.nextMatchId } := by
    simp [hg, heid]
  have huniq : ∀ e' ∈ s.registry, e'.req.id = i → e' = e := by
    intro e' he' hid
    exact entry_inj h e' he' e hemem (by rw [hid, heid])
  have hilt : i < s.nextId := heid ▸ h.ids_lt e hemem
  have hreg : (removeFromQueue
      { s with registry := s.registry.map g ++ [accE],
               store := s.store ++ [m],
               nextId := s.nextId + 1, nextMatchId := s.nextMatchId + 1 }
      e.req.match_type i).registry = s.registry.map g ++ [accE] :=
    setQueue_registry _ _ _
  have hstore : (removeFromQueue
      { s with registry := s.registry.map g ++ [accE],
               store := s.store ++ [m],
               nextId := s.nextId + 1, nextMatchId := s.nextMatchId + 1 }
      e.req.match_type i).store = s.store ++ [m] :=
    setQueue_store _ _ _
  have hnid : (removeFromQueue
      { s with registry := s.registry.map g ++ [accE],
               store := s.store ++ [m],
               nextId := s.nextId + 1, nextMatchId := s.nextMatchId + 1 }
      e.req.match_type i).nextId = s.nextId + 1 :=
    setQueue_nextId _ _ _
  have hnmid : (removeFromQueue
      { s with registry := s.registry.map g ++ [accE],
               store := s.store ++ [m],
               nextId := s.nextId + 1, nextMatchId := s.nextMatchId + 1 }
      e.req.match_type i).nextMatchId = s.nextMatchId + 1 :=
    setQueue_nextMatchId _ _ _
  have hqueue : ∀ mt, queueFor (removeFromQueue
      { s with registry := s.registry.map g ++ [accE],
               store := s.store ++ [m],
               nextId := s.nextId + 1, nextMatchId := s.nextMatchId + 1 }
      e.req.match_type i) mt =
      if mt = e.req.match_type then (queueFor s mt).filter (fun r => r.id != i)
      else queueFor s mt := by
    intro mt
    cases hmtc : e.req.match_type <;> cases mt <;>
      simp [removeFromQueue, setQueue, queueFor]
  refine ⟨?_, ?_, ?_, ?_, ?_, ?_, ?_, ?_, ?_, ?_⟩
  · show ((removeFromQueue _ _ _).registry.map (fun e => e.req.id)).Nodup
    rw [hreg, List.map_append, regIds_map hg_id, List.nodup_append]
    refine ⟨h.nodup_ids, by simp, ?_⟩
    intro a ha hb
    simp only [List.map_cons, List.map_nil, List.mem_singleton] at hb
    obtain ⟨e₀, he₀, rfl⟩ := List.mem_map.1 ha
    have := h.ids_lt e₀ he₀
    have hb' : e₀.req.id = s.nextId := hb
    omega
  · intro e' he'
    rw [hreg] at he'
    rw [hnid]
    rcases List.mem_append.1 he' with he'' | he''
    · obtain ⟨e₀, he₀, rfl⟩ := List.mem_map.1 he''
      rw [hg_id]
      have := h.ids_lt e₀ he₀
      omega
    · simp only [List.mem_singleton] at he''
      subst he''
      simp [hacc]
  · intro mt r hr
    rw [hqueue] at hr
    by_cases hmt : mt = e.req.match_type
    · rw [if_pos hmt] at hr
      exact h.queue_kind mt r (List.mem_filter.1 hr).1
    · rw [if_neg hmt] at hr
      exact h.queue_kind mt r hr
  · intro mt r hr
    rw [hqueue] at hr
    rw [hreg]
    by_cases hmt : mt = e.req.match_type
    · rw [if_pos hmt] at hr
      obtain ⟨hrq, hrne⟩ := List.mem_filter.1 hr
      obtain ⟨e', he', hereq, hw⟩ := h.queue_reg mt r hrq
      have hne : e'.req.id ≠ i := by
        rw [hereq]
        simpa using hrne
      exact ⟨g e', List.mem_append_left _ (List.mem_map_of_mem g he'),
        by rw [hg_other e' hne]; exact ⟨hereq, hw⟩⟩
    · rw [if_neg hmt] at hr
      obtain ⟨e', he', hereq, hw⟩ := h.queue_reg mt r hr
      have hne : e'.req.id ≠ i := by
        intro hid
        have := huniq e' he' hid
        subst this
        exact hmt (by rw [hereq]; exact (h.queue_kind mt r hr).symm)
      exact ⟨g e', List.mem_append_left _ (List.mem_map_of_mem g he'),
        by rw [hg_other e' hne]; exact ⟨hereq, hw⟩⟩
  · intro e' he' hw
    rw [hreg] at he'
    rcases List.mem_append.1 he' with he'' | he''
    · obtain ⟨e₀, he₀, rfl⟩ := List.mem_map.1 he''
      have hne : e₀.req.id ≠ i := by
        intro hid
        have := huniq e₀ he₀ hid
        subst this
        rw [hg_self] at hw
        exact Status.noConfusion hw
      rw [hg_other e₀ hne] at hw ⊢
      have hq := h.waiting_in_queue e₀ he₀ hw
      rw [hqueue]
      by_cases hmt : e₀.req.match_type = e.req.match_type
      · rw [if_pos hmt]
        exact List.mem_filter.2 ⟨hq, by simpa using hne⟩
      · rw [if_neg hmt]
        exact hq
    · simp only [List.mem_singleton] at he''
      subst he''
      simp [hacc] at hw
  · intro mt
    rw [hqueue]
    by_cases hmt : mt = e.req.match_type
    · rw [if_pos hmt]
      exact List.Nodup.sublist
        (List.Sublist.map (fun r : MatchRequest => r.id) (List.filter_sublist _))
        (h.queue_nodup mt)
    · rw [if_neg hmt]
      exact h.queue_nodup mt
  · show ((removeFromQueue _ _ _).store.map (fun m => m.id)).Nodup
    rw [hstore, List.map_append, List.nodup_append]
    refine ⟨h.match_ids_nodup, by simp, ?_⟩
    intro a ha hb
    simp only [List.map_cons, List.map_nil, List.mem_singleton] at hb
    obtain ⟨m₀, hm₀, rfl⟩ := List.mem_map.1 ha
    have := h.match_ids_lt m₀ hm₀
    have hb' : m₀.id = s.nextMatchId := hb
    omega
  · intro m₀ hm₀
    rw [hstore] at hm₀
    rw [hnmid]
    rcases List.mem_append.1 hm₀ with hm' | hm'
    · have := h.match_ids_lt m₀ hm'
      omega
    · simp only [List.mem_singleton] at hm'
      subst hm'
      simp [hm]
  · show (refsOf (removeFromQueue _ _ _).store).Nodup
    rw [hstore, refsOf_append, List.nodup_append]
    refine ⟨h.refs_nodup, ?_, ?_⟩
    · show ([i, s.nextId] ++ refsOf []).Nodup
      simp [refsOf]
      omega
    · intro a ha hb
      show False
      have hb' : a = i ∨ a = s.nextId := by
        revert hb
        show a ∈ ([i, s.nextId] ++ refsOf []) → _
        simp [refsOf]
      obtain ⟨e₀, he₀, hei, hst⟩ := h.refs_matched a ha
      rcases hb' with rfl | rfl
      · have := huniq e₀ he₀ hei
        subst this
        rw [hst] at hwait
        exact Status.noConfusion hwait
      · have := h.ids_lt e₀ he₀
        omega
  · intro j hj
    have hj' : j ∈ refsOf (s.store ++ [m]) := by
      revert hj
      show j ∈ refsOf (removeFromQueue _ _ _).store → _
      rw [hstore]
      exact id
    rw [refsOf_append] at hj'
    rw [hreg]
    rcases List.mem_append.1 hj' with hold | hnew
    · obtain ⟨e₀, he₀, hei, hst⟩ := h.refs_matched j hold
      have hne : e₀.req.id ≠ i := by
        intro hid
        have := huniq e₀ he₀ hid
        subst this
        rw [hst] at hwait
        exact Status.noConfusion hwait
      exact ⟨g e₀, List.mem_append_left _ (List.mem_map_of_mem g he₀),
        by rw [hg_other e₀ hne]; exact ⟨hei, hst⟩⟩
    · have hj'' : j = i ∨ j = s.nextId := by
        revert hnew
        show j ∈ ([i, s.nextId] ++ refsOf []) → _
        simp [refsOf]
      rcases hj'' with rfl | rfl
      · exact ⟨g e, List.mem_append_left _ (List.mem_map_of_mem g hemem),
          by rw [hg_self]; exact ⟨heid, rfl⟩⟩
      · exact ⟨accE, List.mem_append_right _ (by simp), by simp [hacc]⟩

/-- `accept_private_invite` preserves the engine invariant. -/
theorem inv_acceptPrivateInvite {s : EngineState} (h : Inv s) (now : Nat)
    (i : Nat) (w : String) (el : Nat) :
    Inv (acceptPrivateInvite now i w el s).1 := by
  unfold acceptPrivateInvite
  cases hfind : s.registry.find? (fun e => e.req.id == i) with
  | none => exact h
  | some e =>
    dsimp only
    by_cases hst : e.status = Status.Waiting
    · rw [if_pos hst]
      exact inv_acceptCore h hfind hst now w el
    · rw [if_neg hst]
      exact h

/-- The expiration sweep preserves the engine invariant. -/
theorem inv_expireSweep {s : EngineState} (h : Inv s) (now : Nat) :
    Inv (expireSweep now s) := by
  set g : RegEntry → RegEntry := fun e =>
    if e.status = Status.Waiting ∧ staleAt now e.req = true then
      { e with status := Status.Expired }
    else e with hg
  have hg_req : ∀ e', (g e').req = e'.req := by
    intro e'
    by_cases hc : e'.status = Status.Waiting ∧ staleAt now e'.req = true <;> simp [hg, hc]
  have hg_id : ∀ e', (g e').req.id = e'.req.id := fun e' => by rw [hg_req]
  have hreg : (expireSweep now s).registry = s.registry.map g := rfl
  have hstore : (expireSweep now s).store = s.store := rfl
  have hnid : (expireSweep now s).nextId = s.nextId := rfl
  have hnmid : (expireSweep now s).nextMatchId = s.nextMatchId := rfl
  have hqueue : ∀ mt, queueFor (expireSweep now s) mt =
      (queueFor s mt).filter (fun r => !staleAt now r) := by
    intro mt
    cases mt <;> rfl
  refine ⟨?_, ?_, ?_, ?_, ?_, ?_, ?_, ?_, ?_, ?_⟩
  · show ((expireSweep now s).registry.map (fun e => e.req.id)).Nodup
    rw [hreg, regIds_map hg_id]
    exact h.nodup_ids
  · intro e' he'
    rw [hreg] at he'
    obtain ⟨e₀, he₀, rfl⟩ := List.mem_map.1 he'
    rw [hnid, hg_id]
    exact h.ids_lt e₀ he₀
  · intro mt r hr
    rw [hqueue] at hr
    exact h.queue_kind mt r (List.mem_filter.1 hr).1
  · intro mt r hr
    rw [hqueue] at hr
    rw [hreg]
    obtain ⟨hrq, hstale⟩ := List.mem_filter.1 hr
    obtain ⟨e', he', hereq, hw⟩ := h.queue_reg mt r hrq
    have hge : g e' = e' := by
      have : staleAt now e'.req = false := by
        rw [hereq]
        simpa using hstale
      simp [hg, this]
    exact ⟨g e', List.mem_map_of_mem g he', by rw [hge]; exact ⟨hereq, hw⟩⟩
  · intro e' he' hw
    rw [hreg] at he'
    obtain ⟨e₀, he₀, rfl⟩ := List.mem_map.1 he'
    by_cases hc : e₀.status = Status.Waiting ∧ staleAt now e₀.req = true
    · have hex : (g e₀).status = Status.Expired := by simp [hg, hc]
      rw [hex] at hw
      exact Status.noConfusion hw
    · have hge : g e₀ = e₀ := by simp [hg, hc]
      rw [hge] at hw ⊢
      have hstale : staleAt now e₀.req = false := by
        rcases Bool.eq_false_or_eq_true (staleAt now e₀.req) with hb | hb
        · exact absurd ⟨hw, hb⟩ hc
        · exact hb
      have hq := h.waiting_in_queue e₀ he₀ hw
      rw [hqueue]
      exact List.mem_filter.2 ⟨hq, by simp [hstale]⟩
  · intro mt
    rw [hqueue]
    exact List.Nodup.sublist
      (List.Sublist.map (fun r : MatchRequest => r.id) (List.filter_sublist _))
      (h.queue_nodup mt)
  · show ((expireSweep now s).store.map (fun m => m.id)).Nodup
    rw [hstore]
    exact h.match_ids_nodup
  · intro m hm
    rw [hstore] at hm
    rw [hnmid]
    exact h.match_ids_lt m hm
  · show (refsOf (expireSweep now s).store).Nodup
    rw [hstore]
    exact h.refs_nodup
  · intro j hj
    have hj' : j ∈ matchRefIds s := by
      revert hj
      show j ∈ refsOf (expireSweep now s).store → _
      rw [hstore]
      exact id
    obtain ⟨e₀, he₀, hei, hst⟩ := h.refs_matched j hj'
    have hge : g e₀ = e₀ := by
      have : ¬(e₀.status = Status.Waiting ∧ staleAt now e₀.req = true) := by
        intro hc
        rw [hst] at hc
        exact Status.noConfusion hc.1
      simp [hg, this]
    rw [hreg]
    exact ⟨g e₀, List.mem_map_of_mem g he₀, by rw [hge]; exact ⟨hei, hst⟩⟩

/-- Every atomic facade operation preserves the engine invariant. -/
theorem inv_applyOp (op : Op) {s : EngineState} (h : Inv s) : Inv (applyOp op s) := by
  cases op with
  | join now w el mt ia md => exact inv_joinQueue h now w el mt ia md
  | cancel i => exact inv_cancelRequest h i
  | accept now i w el => exact inv_acceptPrivateInvite h now i w el
  | sweep now => exact inv_expireSweep h now

/-- The engine invariant holds after any interleaving of atomic facade
operations from an invariant state. -/
theorem inv_runOps (ops : List Op) {s : EngineState} (h : Inv s) :
    Inv (runOps ops s) := by
  induction ops generalizing s with
  | nil => exact h
  | cons op rest ih => exact ih (inv_applyOp op h)

/-- The engine invariant holds in every reachable state. -/
theorem inv_reachable (ops : List Op) : Inv (runOps ops initState) :=
  inv_runOps ops inv_initState

theorem statusOf_eq_some_iff {s : EngineState} {i : Nat} {st : Status} :
    statusOf s i = some st ↔
      ∃ e, s.registry.find? (fun e' => e'.req.id == i) = some e ∧ e.status = st := by
  unfold statusOf
  cases s.registry.find? (fun e' => e'.req.id == i) <;> simp

/-- A request referenced into a pairing pass was Waiting in the registry. -/
theorem paired_entry_waiting {s : EngineState} (h : Inv s) (now : Nat) :
    ∀ e ∈ s.registry, e.req.id ∈ pairIds (pairAll now s.openQueue).1 →
      e.req ∈ s.openQueue ∧ e.status = Status.Waiting := by
  intro e he hid
  have hperm : s.openQueue.Perm
      (pairsFlat (pairAll now s.openQueue).1 ++ (pairAll now s.openQueue).2) :=
    pairStep_perm now _ _
  obtain ⟨r, hr, hrid⟩ := List.mem_map.1 hid
  have hrq : r ∈ s.openQueue := hperm.mem_iff.2 (List.mem_append_left _ hr)
  obtain ⟨e', he', hreq, hwait⟩ := h.queue_reg MatchType.Open r hrq
  have hee : e' = e := entry_inj h e' he' e he (by rw [hreq, hrid])
  subst hee
  exact ⟨hreq ▸ hrq, hwait⟩

/-- A pairing pass never moves a resolved request's status. -/
theorem statusOf_applyPairing_resolved {s : EngineState} (h : Inv s) (now : Nat)
    {i : Nat} {st : Status} (hst : st ≠ Status.Waiting)
    (hcur : statusOf s i = some st) : statusOf (applyPairing now s) i = some st := by
  obtain ⟨e, hfind, hestatus⟩ := statusOf_eq_some_iff.1 hcur
  have hmem := List.mem_of_find?_eq_some hfind
  rw [statusOf_eq_some_iff, applyPairing_def]
  have hfid : ∀ e' : RegEntry,
      ((match assignOf (pairAll now s.openQueue).1 s.nextMatchId e'.req.id with
        | some mid => { e' with status := Status.Matched, matchRef := some mid }
        | none => e') : RegEntry).req.id = e'.req.id := by
    intro e'
    cases assignOf (pairAll now s.openQueue).1 s.nextMatchId e'.req.id <;> rfl
  have hnone : assignOf (pairAll now s.openQueue).1 s.nextMatchId e.req.id = none := by
    rw [assignOf_eq_none_iff]
    intro hidmem
    have := (paired_entry_waiting h now e hmem hidmem).2
    rw [hestatus] at this
    exact hst this
  refine ⟨(match assignOf (pairAll now s.openQueue).1 s.nextMatchId e.req.id with
      | some mid => { e with status := Status.Matched, matchRef := some mid }
      | none => e), ?_, ?_⟩
  · show (s.registry.map _).find? _ = _
    rw [find?_entry_map hfid, hfind]
    rfl
  · rw [hnone]
    exact hestatus

/-- Admission of a fresh request does not change any existing status. -/
theorem statusOf_enqueue {s : EngineState} {i : Nat} {st : Status}
    (hcur : statusOf s i = some st) (now : Nat) (w : String) (el : Nat)
    (mt : MatchType) (ia : Option String) (md : Option Nat) :
    statusOf (enqueueState now w el mt ia md s) i = some st := by
  obtain ⟨e, hfind, hestatus⟩ := statusOf_eq_some_iff.1 hcur
  rw [statusOf_eq_some_iff]
  refine ⟨e, ?_, hestatus⟩
  unfold enqueueState
  rw [setQueue_registry]
  show (s.registry ++ _).find? _ = some e
  rw [List.find?_append, hfind]
  rfl

/-- `join_queue` never moves a resolved request's status. -/
theorem statusOf_join_mono {s : EngineState} (h : Inv s) {i : Nat} {st : Status}
    (hst : st ≠ Status.Waiting) (hcur : statusOf s i = some st) (now : Nat)
    (w : String) (el : Nat) (mt : MatchType) (ia : Option String)
    (md : Option Nat) : statusOf (joinQueue now w el mt ia md s).1 i = some st := by
  rw [joinQueue_fst]
  have h2 := statusOf_enqueue hcur now w el mt ia md
  by_cases hmt : mt = MatchType.Open
  · rw [if_pos hmt]
    exact statusOf_applyPairing_resolved (inv_enqueueState h now w el mt ia md) now hst h2
  · rw [if_neg hmt]
    exact h2

/-- `cancel_request` never moves a resolved request's status. -/
theorem statusOf_cancel_mono {s : EngineState} (c : Nat) {i : Nat} {st : Status}
    (hst : st ≠ Status.Waiting) (hcur : statusOf s i = some st) :
    statusOf (cancelRequest c s).1 i = some st := by
  obtain ⟨e, hfind, hestatus⟩ := statusOf_eq_some_iff.1 hcur
  unfold cancelRequest
  cases hfc : s.registry.find? (fun e' => e'.req.id == c) with
  | none => exact hcur
  | some ec =>
    dsimp only
    by_cases hw : ec.status = Status.Waiting
    · rw [if_pos hw]
      by_cases hic : i = c
      · subst hic
        rw [hfind] at hfc
        injection hfc with h'
        subst h'
        rw [hestatus] at hw
        exact absurd hw hst
      · have heid : e.req.id = i := (mem_find?_id hfind).2
        rw [statusOf_eq_some_iff]
        have hfid : ∀ e' : RegEntry,
            ((if e'.req.id == c then { e' with status := Status.Cancelled } else e') :
              RegEntry).req.id = e'.req.id := by
          intro e'
          by_cases hc : e'.req.id = c <;> simp [hc]
        refine ⟨(if e.req.id == c then { e with status := Status.Cancelled } else e), ?_, ?_⟩
        · rw [removeFromQueue_registry]
          show ((s.registry.map (fun e' =>
              if e'.req.id == c then { e' with status := Status.Cancelled } else e')).find?
              (fun e' => e'.req.id == i)) = _
          rw [find?_entry_map hfid, hfind]
          rfl
        · have : ¬(e.req.id = c) := by rw [heid]; exact hic
          simp [this, hestatus]
    · rw [if_neg hw]
      exact hcur

/-- `accept_private_invite` never moves a resolved request's status. -/
theorem statusOf_accept_mono {s : EngineState} (now : Nat) (c : Nat) (w : String)
    (el : Nat) {i : Nat} {st : Status} (hst : st ≠ Status.Waiting)
    (hcur : statusOf s i = some st) :
    statusOf (acceptPrivateInvite now c w el s).1 i = some st := by
  obtain ⟨e, hfind, hestatus⟩ := statusOf_eq_some_iff.1 hcur
  unfold acceptPrivateInvite
  cases hfc : s.registry.find? (fun e' => e'.req.id == c) with
  | none => exact hcur
  | some ec =>
    dsimp only
    by_cases hw : ec.status = Status.Waiting
    · rw [if_pos hw]
      by_cases hic : i = c
      · subst hic
        rw [hfind] at hfc
        injection hfc with h'
        subst h'
        rw [hestatus] at hw
        exact absurd hw hst
      · have heid : e.req.id = i := (mem_find?_id hfind).2
        rw [statusOf_eq_some_iff]
        have hfid : ∀ e' : RegEntry,
            ((if e'.req.id == c then
              { e' with status := Status.Matched, matchRef := some s.nextMatchId }
            else e') : RegEntry).req.id = e'.req.id := by
          intro e'
          by_cases hcc : e'.req.id = c <;> simp [hcc]
        refine ⟨(if e.req.id == c then
            { e with status := Status.Matched, matchRef := some s.nextMatchId }
          else e), ?_, ?_⟩
        · rw [removeFromQueue_registry]
          show ((s.registry.map (fun e' =>
              if e'.req.id == c then
                { e' with status := Status.Matched, matchRef := some s.nextMatchId }
              else e') ++ _).find? (fun e' => e'.req.id == i)) = _
          rw [List.find?_append, find?_entry_map hfid, hfind]
          rfl
        · have : ¬(e.req.id = c) := by rw [heid]; exact hic
          simp [this, hestatus]
    · rw [if_neg hw]
      exact hcur

/-- The expiration sweep never moves a resolved request's status. -/
theorem statusOf_sweep_mono {s : EngineState} (now : Nat) {i : Nat} {st : Status}
    (hst : st ≠ Status.Waiting) (hcur : statusOf s i = some st) :
    statusOf (expireSweep now s) i = some st := by
  obtain ⟨e, hfind, hestatus⟩ := statusOf_eq_some_iff.1 hcur
  rw [statusOf_eq_some_iff]
  have hfid : ∀ e' : RegEntry,
      ((if e'.status = Status.Waiting ∧ staleAt now e'.req = true then
        { e' with status := Status.Expired }
      else e') : RegEntry).req.id = e'.req.id := by
    intro e'
    by_cases hc : e'.status = Status.Waiting ∧ staleAt now e'.req = true <;> simp [hc]
  refine ⟨(if e.status = Status.Waiting ∧ staleAt now e.req = true then
      { e with status := Status.Expired }
    else e), ?_, ?_⟩
  · show ((s.registry.map (fun e' =>
        if e'.status = Status.Waiting ∧ staleAt now e'.req = true then
          { e' with status := Status.Expired }
        else e')).find? (fun e' => e'.req.id == i)) = _
    rw [find?_entry_map hfid, hfind]
    rfl
  · have : ¬(e.status = Status.Waiting ∧ staleAt now e.req = true) := by
      intro hc
      rw [hestatus] at hc
      exact hst hc.1
    simp [this, hestatus, hst]

/-- No atomic facade operation moves a resolved request's status. -/
theorem statusOf_mono_op (op : Op) {s : EngineState} (h : Inv s) {i : Nat}
    {st : Status} (hst : st ≠ Status.Waiting) (hcur : statusOf s i = some st) :
    statusOf (applyOp op s) i = some st := by
  cases op with
  | join now w el mt ia md => exact statusOf_join_mono h hst hcur now w el mt ia md
  | cancel c => exact statusOf_cancel_mono c hst hcur
  | accept now c w el => exact statusOf_accept_mono now c w el hst hcur
  | sweep now => exact statusOf_sweep_mono now hst hcur

/-- A resolved status persists across any interleaving of facade
operations: once Matched, Cancelled or Expired, never Waiting again. -/
theorem statusOf_mono_runOps (ops : List Op) {s : EngineState} (h : Inv s)
    {i : Nat} {st : Status} (hst : st ≠ Status.Waiting)
    (hcur : statusOf s i = some st) : statusOf (runOps ops s) i = some st := by
  induction ops generalizing s with
  | nil => exact hcur
  | cons op rest ih => exact ih (inv_applyOp op h) (statusOf_mono_op op h hst hcur)

/-- Compatibility is symmetric. -/
theorem compatible_comm (now : Nat) (a b : MatchRequest) :
    compatible now a b = compatible now b a := by
  unfold compatible eloDiff effectiveBound
  rw [Nat.max_comm, Nat.min_comm a.player.elo, Nat.min_comm (widenedBound now a)]

/-- The counterpart selected by the reference FIFO function is compatible. -/
theorem selectPairFIFO_compatible {now : Nat} {q : List MatchRequest}
    {a b : MatchRequest} (h : selectPairFIFO now q = some (a, b)) :
    compatible now a b = true := by
  induction q with
  | nil => simp [selectPairFIFO] at h
  | cons x rest ih =>
    cases hf : rest.find? (fun y => compatible now x y) with
    | some b' =>
      simp only [selectPairFIFO, hf, Option.some.injEq, Prod.mk.injEq] at h
      obtain ⟨rfl, rfl⟩ := h
      exact List.find?_some hf
    | none =>
      simp only [selectPairFIFO, hf] at h
      exact ih h

/-- In a snapshot sorted by join time, `find?` returns a hit with minimal
join time among all hits (so the first hit is the earliest-joined one,
ties resolved in favour of the earlier position). -/
theorem find?_min_join {p : MatchRequest → Bool} {l : List MatchRequest}
    {b : MatchRequest}
    (hsort : l.Pairwise (fun x y => x.player.join_time ≤ y.player.join_time))
    (hfind : l.find? p = some b) :
    ∀ c ∈ l, p c = true → b.player.join_time ≤ c.player.join_time := by
  induction l with
  | nil => simp at hfind
  | cons x xs ih =>
    intro c hc hpc
    cases hx : p x with
    | true =>
      rw [List.find?_cons_of_pos _ hx] at hfind
      injection hfind with hbx
      subst hbx
      rcases List.mem_cons.1 hc with rfl | hc'
      · exact Nat.le_refl _
      · exact (List.pairwise_cons.1 hsort).1 c hc'
    | false =>
      rw [List.find?_cons_of_neg _ (by simp [hx])] at hfind
      rcases List.mem_cons.1 hc with rfl | hc'
      · rw [hx] at hpc
        exact Bool.noConfusion hpc
      · exact ih (List.pairwise_cons.1 hsort).2 hfind c hc' hpc

/-- Partition/registry correspondence derived from the invariant. -/
theorem inv_queue_status {s : EngineState} (h : Inv s) :
    (∀ e ∈ s.registry,
      (e.status = Status.Waiting ↔ idInQueue s e.req.match_type e.req.id = true))
  ∧ (∀ e ∈ s.registry, ∀ mt, idInQueue s mt e.req.id = true →
      mt = e.req.match_type ∧ e.status = Status.Waiting)
  ∧ (∀ i mt, idInQueue s mt i = true → ∃ e ∈ s.registry, e.req.id = i) := by
  refine ⟨?_, ?_, ?_⟩
  · intro e he
    constructor
    · intro hw
      have hq := h.waiting_in_queue e he hw
      exact List.any_eq_true.2 ⟨e.req, hq, by simp⟩
    · intro hq
      obtain ⟨r, hr, hrid⟩ := List.any_eq_true.1 hq
      obtain ⟨e', he', hereq, hwait⟩ := h.queue_reg _ r hr
      have : e' = e := entry_inj h e' he' e he (by rw [hereq]; simpa using hrid)
      subst this
      exact hwait
  · intro e he mt hq
    obtain ⟨r, hr, hrid⟩ := List.any_eq_true.1 hq
    obtain ⟨e', he', hereq, hwait⟩ := h.queue_reg mt r hr
    have : e' = e := entry_inj h e' he' e he (by rw [hereq]; simpa using hrid)
    subst this
    constructor
    · rw [hereq]
      exact (h.queue_kind mt r hr).symm
    · exact hwait
  · intro i mt hq
    obtain ⟨r, hr, hrid⟩ := List.any_eq_true.1 hq
    obtain ⟨e', he', hereq, _⟩ := h.queue_reg mt r hr
    exact ⟨e', he', by rw [hereq]; simpa using hrid⟩

/-- C1: every pair of Open requests the Pairing Engine pairs satisfies
`|A.elo - B.elo| <= effective_bound(A, B)` at the moment of pairing, where
the effective bound is the minimum of each request's supplied
`max_elo_diff` (or the engine default when absent) widened over its own
elapsed wait time, and the widening function is deterministic,
non-decreasing in each request's wait time, and bounded by the maximum cap. -/
theorem C1_pair_within_effective_bound :
    (∀ (now : Nat) (q : List MatchRequest) (p : MatchRequest × MatchRequest),
        p ∈ (pairAll now q).1 → eloDiff p.1 p.2 ≤ effectiveBound now p.1 p.2)
  ∧ (∀ b w₁ w₂ : Nat, w₁ ≤ w₂ → widen b w₁ ≤ widen b w₂)
  ∧ (∀ b w : Nat, widen b w ≤ MAX_WIDEN_CAP)
  ∧ (∀ (now : Nat) (a b : MatchRequest), effectiveBound now a b =
      min (widen (boundOf a) (waitOf now a)) (widen (boundOf b) (waitOf now b))) := by
  refine ⟨?_, ?_, ?_, ?_⟩
  · intro now q p hp
    exact of_decide_eq_true (pairStep_pairs_compatible now q.length q p hp)
  · intro b w₁ w₂ hw
    simp only [widen, widenWith, WIDEN_RATE, MAX_WIDEN_CAP]
    omega
  · intro b w
    simp only [widen, widenWith, MAX_WIDEN_CAP]
    omega
  · intro now a b
    rfl

/-- Witness for C1 at a concrete snapshot: players at ELO 1500 and 1540
with bounds 50 and 100 are paired, and the emitted pair meets the bound;
the widening function is monotone at a concrete pair of wait times. -/
theorem C1_witness :
    ((⟨0, ⟨"0xA", 1500, 0⟩, MatchType.Open, none, some 50⟩ : MatchRequest),
     (⟨1, ⟨"0xB", 1540, 2⟩, MatchType.Open, none, some 100⟩ : MatchRequest)) ∈
      (pairAll 2 [⟨0, ⟨"0xA", 1500, 0⟩, MatchType.Open, none, some 50⟩,
                  ⟨1, ⟨"0xB", 1540, 2⟩, MatchType.Open, none, some 100⟩]).1
  ∧ eloDiff ⟨0, ⟨"0xA", 1500, 0⟩, MatchType.Open, none, some 50⟩
        ⟨1, ⟨"0xB", 1540, 2⟩, MatchType.Open, none, some 100⟩ ≤
      effectiveBound 2 ⟨0, ⟨"0xA", 1500, 0⟩, MatchType.Open, none, some 50⟩
        ⟨1, ⟨"0xB", 1540, 2⟩, MatchType.Open, none, some 100⟩
  ∧ (3 : Nat) ≤ 5 ∧ widen 10 3 ≤ widen 10 5 :=
  ⟨by decide,
   C1_pair_within_effective_bound.1 2
     [⟨0, ⟨"0xA", 1500, 0⟩, MatchType.Open, none, some 50⟩,
      ⟨1, ⟨"0xB", 1540, 2⟩, MatchType.Open, none, some 100⟩]
     (⟨0, ⟨"0xA", 1500, 0⟩, MatchType.Open, none, some 50⟩,
      ⟨1, ⟨"0xB", 1540, 2⟩, MatchType.Open, none, some 100⟩) (by decide),
   by decide,
   C1_pair_within_effective_bound.2.1 10 3 5 (by decide)⟩

/-- C7: the pair a pairing pass emits first is exactly the one the greedy
FIFO reference policy selects — scan oldest-first, pair the oldest request
having a compatible counterpart with the first compatible hit of its tail —
the selected counterpart is compatible, and in a snapshot sorted by join
time the first hit has the earliest join time among all compatible
candidates (ties resolved toward the earlier position). -/
theorem C7_selection_is_greedy_fifo :
    ∀ (now : Nat) (q : List MatchRequest),
      ((pairAll now q).1.head? = selectPairFIFO now q)
    ∧ (∀ a b, selectPairFIFO now q = some (a, b) → compatible now a b = true)
    ∧ (∀ (a b : MatchRequest) (rest : List MatchRequest),
        rest.Pairwise (fun x y => x.player.join_time ≤ y.player.join_time) →
        rest.find? (fun x => compatible now a x) = some b →
        ∀ c ∈ rest, compatible now a c = true →
          b.player.join_time ≤ c.player.join_time) := by
  intro now q
  refine ⟨pairStep_head now q.length q (Nat.le_refl _), ?_, ?_⟩
  · intro a b h
    exact selectPairFIFO_compatible h
  · intro a b rest hsort hfind c hc hpc
    exact find?_min_join hsort hfind c hc hpc

/-- Witness for C7 on a concrete sorted snapshot. -/
theorem C7_witness :
    compatible 2 ⟨0, ⟨"0xA", 1500, 0⟩, MatchType.Open, none, some 50⟩
      ⟨1, ⟨"0xB", 1540, 2⟩, MatchType.Open, none, some 100⟩ = true
  ∧ (⟨1, ⟨"0xB", 1540, 2⟩, MatchType.Open, none,
      some 100⟩ : MatchRequest).player.join_time ≤
      (⟨1, ⟨"0xB", 1540, 2⟩, MatchType.Open, none,
        some 100⟩ : MatchRequest).player.join_time :=
  ⟨(C7_selection_is_greedy_fifo 2
      [⟨0, ⟨"0xA", 1500, 0⟩, MatchType.Open, none, some 50⟩,
       ⟨1, ⟨"0xB", 1540, 2⟩, MatchType.Open, none, some 100⟩]).2.1
      ⟨0, ⟨"0xA", 1500, 0⟩, MatchType.Open, none, some 50⟩
      ⟨1, ⟨"0xB", 1540, 2⟩, MatchType.Open, none, some 100⟩ (by decide),
   (C7_selection_is_greedy_fifo 2
      [⟨1, ⟨"0xB", 1540, 2⟩, MatchType.Open, none, some 100⟩]).2.2
      ⟨0, ⟨"0xA", 1500, 0⟩, MatchType.Open, none, some 50⟩
      ⟨1, ⟨"0xB", 1540, 2⟩, MatchType.Open, none, some 100⟩
      [⟨1, ⟨"0xB", 1540, 2⟩, MatchType.Open, none, some 100⟩]
      (by simp)
      (by decide)
      ⟨1, ⟨"0xB", 1540, 2⟩, MatchType.Open, none, some 100⟩
      (by decide) (by decide)⟩

/-- C8 counterexample: a request R (bound 10, ELO 1000, joined at 0) has
waited past the threshold at which its widened bound reaches the distance
D = 200 to counterpart C (ELO 1200), C is present in the same snapshot, yet
the pairing pass at time 300 pairs nothing — C's own bound (5, joined at
295) keeps the pair's effective bound at 10, so unilateral widening does
not deliver the pairing the claim asserts. -/
theorem C8_counterexample :
    eloDiff (⟨0, ⟨"0xR", 1000, 0⟩, MatchType.Open, none, some 10⟩ : MatchRequest)
        (⟨1, ⟨"0xC", 1200, 295⟩, MatchType.Open, none, some 5⟩ : MatchRequest) = 200
  ∧ boundOf (⟨0, ⟨"0xR", 1000, 0⟩, MatchType.Open, none, some 10⟩ : MatchRequest) = 10
  ∧ 10 < 200
  ∧ 200 ≤ MAX_WIDEN_CAP
  ∧ 200 ≤ widen
      (boundOf (⟨0, ⟨"0xR", 1000, 0⟩, MatchType.Open, none, some 10⟩ : MatchRequest))
      (waitOf 300 (⟨0, ⟨"0xR", 1000, 0⟩, MatchType.Open, none, some 10⟩ : MatchRequest))
  ∧ (pairAll 300 [⟨0, ⟨"0xR", 1000, 0⟩, MatchType.Open, none, some 10⟩,
       ⟨1, ⟨"0xC", 1200, 295⟩, MatchType.Open, none, some 5⟩]).1 = [] := by
  decide

/-- C8 as amended: the widening function reaches any distance below the cap
once the wait passes the linear threshold, and after a pairing pass no two
mutually compatible requests both remain waiting — so a request cannot
starve while a counterpart whose effective bound has also widened past
their ELO distance is still waiting in the partition. -/
theorem C8_no_starvation_bilateral :
    (∀ b w d : Nat, d ≤ MAX_WIDEN_CAP → d ≤ b + WIDEN_RATE * w → d ≤ widen b w)
  ∧ (∀ (now : Nat) (q : List MatchRequest),
      (pairAll now q).2.Pairwise (fun a b => compatible now a b = false))
  ∧ (∀ (now : Nat) (q : List MatchRequest) (a b : MatchRequest),
      a ∈ (pairAll now q).2 → b ∈ (pairAll now q).2 → a ≠ b →
      compatible now a b = false) := by
  refine ⟨?_, ?_, ?_⟩
  · intro b w d h1 h2
    simp only [widen, widenWith, WIDEN_RATE, MAX_WIDEN_CAP] at *
    omega
  · intro now q
    exact pairStep_leftover_pairwise now q.length q (Nat.le_refl _)
  · intro now q a b ha hb hne
    have hsym : Symmetric (fun a b : MatchRequest => compatible now a b = false) := by
      intro x y hxy
      rw [compatible_comm]
      exact hxy
    exact (pairStep_leftover_pairwise now q.length q (Nat.le_refl _)).forall
      hsym ha hb hne

/-- Witness for the amended C8 at concrete inputs: widening reaches 50
after a wait of 40 from base 10, and the two leftover requests of the
counterexample snapshot are mutually incompatible. -/
theorem C8_witness :
    (50 : Nat) ≤ widen 10 40
  ∧ compatible 300 (⟨0, ⟨"0xR", 1000, 0⟩, MatchType.Open, none, some 10⟩ : MatchRequest)
      (⟨1, ⟨"0xC", 1200, 295⟩, MatchType.Open, none, some 5⟩ : MatchRequest) = false :=
  ⟨C8_no_starvation_bilateral.1 10 40 50 (by decide) (by decide),
   C8_no_starvation_bilateral.2.2 300
     [⟨0, ⟨"0xR", 1000, 0⟩, MatchType.Open, none, some 10⟩,
      ⟨1, ⟨"0xC", 1200, 295⟩, MatchType.Open, none, some 5⟩]
     ⟨0, ⟨"0xR", 1000, 0⟩, MatchType.Open, none, some 10⟩
     ⟨1, ⟨"0xC", 1200, 295⟩, MatchType.Open, none, some 5⟩
     (by decide) (by decide) (by decide)⟩

/-- C2: in every reachable engine state each request id is referenced by at
most one Match record, and every facade operation only ever appends to the
Match Store — match records are never mutated or deleted. -/
theorem C2_at_most_one_match :
    (∀ (ops : List Op) (i : Nat), countRefs (runOps ops initState) i ≤ 1)
  ∧ (∀ (op : Op) (s : EngineState), ∃ t, (applyOp op s).store = s.store ++ t) := by
  refine ⟨?_, ?_⟩
  · intro ops i
    exact (List.nodup_iff_count_le_one.1 (inv_reachable ops).refs_nodup) i
  · intro op s
    cases op with
    | join now w el mt ia md =>
      show ∃ t, (joinQueue now w el mt ia md s).1.store = s.store ++ t
      rw [joinQueue_fst]
      by_cases hmt : mt = MatchType.Open
      · rw [if_pos hmt]
        refine ⟨mkMatches now
          (pairAll now (enqueueState now w el mt ia md s).openQueue).1
          (enqueueState now w el mt ia md s).nextMatchId, ?_⟩
        rw [applyPairing_def]
        show (enqueueState now w el mt ia md s).store ++ _ = s.store ++ _
        unfold enqueueState
        rw [setQueue_store]
      · rw [if_neg hmt]
        refine ⟨[], ?_⟩
        unfold enqueueState
        rw [setQueue_store]
        simp
    | cancel i =>
      show ∃ t, (cancelRequest i s).1.store = s.store ++ t
      refine ⟨[], ?_⟩
      unfold cancelRequest
      cases hfind : s.registry.find? (fun e => e.req.id == i) with
      | none => simp
      | some e =>
        dsimp only
        by_cases hst : e.status = Status.Waiting
        · rw [if_pos hst]
          show (removeFromQueue _ _ _).store = _
          rw [removeFromQueue_store]
          simp
        · rw [if_neg hst]
          simp
    | accept now i w el =>
      show ∃ t, (acceptPrivateInvite now i w el s).1.store = s.store ++ t
      unfold acceptPrivateInvite
      cases hfind : s.registry.find? (fun e => e.req.id == i) with
      | none => exact ⟨[], by simp⟩
      | some e =>
        dsimp only
        by_cases hst : e.status = Status.Waiting
        · rw [if_pos hst]
          refine ⟨[⟨s.nextMatchId, i, s.nextId, MatchType.Invite, now⟩], ?_⟩
          show (removeFromQueue _ _ _).store = _
          rw [removeFromQueue_store]
        · rw [if_neg hst]
          exact ⟨[], by simp⟩
    | sweep now =>
      refine ⟨[], ?_⟩
      show (expireSweep now s).store = s.store ++ []
      simp [expireSweep]

/-- C3: in every reachable state a registered request is in a Queue
Partition if and only if its status is Waiting; a Waiting request is only
in the partition of its own match kind; a resolved request is in no
partition; and every id found in a partition is registered.  Reachable
states cover the state after every facade operation, pairing pass and
expiration sweep. -/
theorem C3_partition_iff_waiting :
    ∀ (ops : List Op),
      (∀ e ∈ (runOps ops initState).registry,
        (e.status = Status.Waiting ↔
          idInQueue (runOps ops initState) e.req.match_type e.req.id = true))
    ∧ (∀ e ∈ (runOps ops initState).registry, e.status = Status.Waiting →
        ∀ mt, idInQueue (runOps ops initState) mt e.req.id = true →
          mt = e.req.match_type)
    ∧ (∀ e ∈ (runOps ops initState).registry, e.status ≠ Status.Waiting →
        ∀ mt, idInQueue (runOps ops initState) mt e.req.id = false)
    ∧ (∀ (i : Nat) (mt : MatchType), idInQueue (runOps ops initState) mt i = true →
        ∃ e ∈ (runOps ops initState).registry, e.req.id = i) := by
  intro ops
  obtain ⟨h1, h2, h3⟩ := inv_queue_status (inv_reachable ops)
  refine ⟨h1, ?_, ?_, h3⟩
  · intro e he _ mt hq
    exact (h2 e he mt hq).1
  · intro e he hnw mt
    cases hb : idInQueue (runOps ops initState) mt e.req.id with
    | false => rfl
    | true => exact absurd (h2 e he mt hb).2 hnw

/-- Witness for C3: after one Invite join, the Waiting entry is in the
invite partition, only there, and its id is registered. -/
theorem C3_witness :
    idInQueue (runOps [Op.join 0 "0xD" 1500 MatchType.Invite (some "0xE") none]
      initState) MatchType.Invite 0 = true
  ∧ idInQueue (runOps [Op.join 0 "0xD" 1500 MatchType.Invite (some "0xE") none]
      initState) MatchType.Open 0 = false := by
  have h := C3_partition_iff_waiting
    [Op.join 0 "0xD" 1500 MatchType.Invite (some "0xE") none]
  constructor
  · exact (h.1 ⟨⟨0, ⟨"0xD", 1500, 0⟩, MatchType.Invite, some "0xE", none⟩,
      Status.Waiting, none⟩ (by decide)).1 (by decide)
  · cases hb : idInQueue (runOps [Op.join 0 "0xD" 1500 MatchType.Invite
        (some "0xE") none] initState) MatchType.Open 0 with
    | false => rfl
    | true =>
      have := h.2.1 ⟨⟨0, ⟨"0xD", 1500, 0⟩, MatchType.Invite, some "0xE", none⟩,
        Status.Waiting, none⟩ (by decide) (by decide) MatchType.Open hb
      exact MatchType.noConfusion this

/-- C9: under every interleaving of the atomic facade operations, no
observable state has a request Matched in the Registry but still present in
a partition, and every request present in a partition is Waiting in the
Registry. -/
theorem C9_atomic_consistency :
    ∀ (ops : List Op) (i : Nat) (mt : MatchType),
      (statusOf (runOps ops initState) i = some Status.Matched →
        idInQueue (runOps ops initState) mt i = false)
    ∧ (idInQueue (runOps ops initState) mt i = true →
        statusOf (runOps ops initState) i = some Status.Waiting) := by
  intro ops i mt
  have h := inv_reachable ops
  obtain ⟨h1, h2, h3⟩ := inv_queue_status h
  constructor
  · intro hm
    obtain ⟨e, hfind, hestatus⟩ := statusOf_eq_some_iff.1 hm
    obtain ⟨hmem, heid⟩ := mem_find?_id hfind
    cases hb : idInQueue (runOps ops initState) mt i with
    | false => rfl
    | true =>
      have hw := (h2 e hmem mt (heid ▸ hb)).2
      rw [hestatus] at hw
      exact Status.noConfusion hw
  · intro hq
    obtain ⟨e, hmem, heid⟩ := h3 i mt hq
    have hw := (h2 e hmem mt (heid ▸ hq)).2
    rw [statusOf_eq_some_iff]
    have hsome : ((runOps ops initState).registry.find?
        (fun e' => e'.req.id == i)).isSome = true :=
      List.find?_isSome.2 ⟨e, hmem, by simp [heid]⟩
    obtain ⟨e', hfind'⟩ := Option.isSome_iff_exists.1 hsome
    obtain ⟨hmem', heid'⟩ := mem_find?_id hfind'
    have hee : e' = e := entry_inj h e' hmem' e hmem (by rw [heid', heid])
    subst hee
    exact ⟨e', hfind', hw⟩

/-- Witness for C9: after two compatible Open joins, request 0 is Matched
and absent from the Open partition; after one Invite join, request 0 is in
the invite partition and its status is Waiting. -/
theorem C9_witness :
    idInQueue (runOps [Op.join 0 "0xA" 1500 MatchType.Open none (some 50),
      Op.join 2 "0xB" 1540 MatchType.Open none (some 100)] initState)
      MatchType.Open 0 = false
  ∧ statusOf (runOps [Op.join 0 "0xD" 1500 MatchType.Invite (some "0xE") none]
      initState) 0 = some Status.Waiting :=
  ⟨(C9_atomic_consistency [Op.join 0 "0xA" 1500 MatchType.Open none (some 50),
      Op.join 2 "0xB" 1540 MatchType.Open none (some 100)] 0 MatchType.Open).1
      (by decide),
   (C9_atomic_consistency [Op.join 0 "0xD" 1500 MatchType.Invite (some "0xE") none]
      0 MatchType.Invite).2 (by decide)⟩

/-- C4: a request's status is monotonic — once resolved it never returns to
Waiting under any further interleaving of facade operations — and the
Registry's `transition` operation advances a status only from Waiting,
failing with `InvalidTransition` (registry untouched) when the request is
already resolved. -/
theorem C4_status_monotonic :
    (∀ (ops more : List Op) (i : Nat) (st : Status), st ≠ Status.Waiting →
      statusOf (runOps ops initState) i = some st →
      statusOf (runOps more (runOps ops initState)) i = some st)
  ∧ (∀ (reg : List RegEntry) (i : Nat) (st : Status) (ref : Option Nat)
      (e : RegEntry), reg.find? (fun e' => e'.req.id == i) = some e →
      e.status ≠ Status.Waiting →
      transition reg i st ref = Except.error RegistryError.InvalidTransition)
  ∧ (∀ (reg : List RegEntry) (i : Nat) (st : Status) (ref : Option Nat)
      (e : RegEntry), reg.find? (fun e' => e'.req.id == i) = some e →
      e.status = Status.Waiting →
      transition reg i st ref = Except.ok (reg.map (fun e' =>
        if e'.req.id == i then { e' with status := st, matchRef := ref }
        else e'))) := by
  refine ⟨?_, ?_, ?_⟩
  · intro ops more i st hst hcur
    exact statusOf_mono_runOps more (inv_reachable ops) hst hcur
  · intro reg i st ref e hfind hnw
    unfold transition
    simp only [hfind]
    rw [if_neg hnw]
  · intro reg i st ref e hfind hw
    unfold transition
    simp only [hfind]
    rw [if_pos hw]

/-- Witness for C4: request 0, Matched after two compatible joins, stays
Matched across a later cancel attempt; `transition` rejects a Cancelled
entry and advances a Waiting one on concrete registries. -/
theorem C4_witness :
    statusOf (runOps [Op.cancel 0] (runOps
      [Op.join 0 "0xA" 1500 MatchType.Open none (some 50),
       Op.join 2 "0xB" 1540 MatchType.Open none (some 100)] initState)) 0 =
      some Status.Matched
  ∧ transition [⟨⟨0, ⟨"0xA", 1500, 0⟩, MatchType.Open, none, none⟩,
      Status.Cancelled, none⟩] 0 Status.Matched (some 7) =
      Except.error RegistryError.InvalidTransition
  ∧ transition [⟨⟨0, ⟨"0xA", 1500, 0⟩, MatchType.Open, none, none⟩,
      Status.Waiting, none⟩] 0 Status.Matched (some 7) =
      Except.ok [⟨⟨0, ⟨"0xA", 1500, 0⟩, MatchType.Open, none, none⟩,
        Status.Matched, some 7⟩] := by
  refine ⟨?_, ?_, ?_⟩
  · exact C4_status_monotonic.1
      [Op.join 0 "0xA" 1500 MatchType.Open none (some 50),
       Op.join 2 "0xB" 1540 MatchType.Open none (some 100)]
      [Op.cancel 0] 0 Status.Matched (by decide) (by decide)
  · exact C4_status_monotonic.2.1 _ 0 Status.Matched (some 7)
      ⟨⟨0, ⟨"0xA", 1500, 0⟩, MatchType.Open, none, none⟩, Status.Cancelled, none⟩
      (by decide) (by decide)
  · have := C4_status_monotonic.2.2
      [⟨⟨0, ⟨"0xA", 1500, 0⟩, MatchType.Open, none, none⟩, Status.Waiting, none⟩]
      0 Status.Matched (some 7)
      ⟨⟨0, ⟨"0xA", 1500, 0⟩, MatchType.Open, none, none⟩, Status.Waiting, none⟩
      (by decide) (by decide)
    rw [this]
    rfl

/-- Removal leaves no occurrence of the removed id in the partition. -/
theorem idInQueue_remove_self (s : EngineState) (mt : MatchType) (i : Nat) :
    idInQueue (removeFromQueue s mt i) mt i = false := by
  unfold idInQueue
  rw [queueFor_removeFromQueue_self]
  cases hb : ((queueFor s mt).filter (fun r => r.id != i)).any (fun r => r.id == i) with
  | false => rfl
  | true =>
    obtain ⟨r, hr, hri⟩ := List.any_eq_true.1 hb
    have hne := (List.mem_filter.1 hr).2
    simp only [bne_iff_ne, ne_eq] at hne
    simp only [beq_iff_eq] at hri
    exact absurd hri hne

/-- C5: `accept_private_invite` returns a not-found outcome (state
untouched) when the inviter's request is absent or already resolved; on a
Waiting inviter it synthesizes the accepting player's request, resolves
both to Matched atomically, stores and returns a Match pairing the inviter
with the accepter — with no condition on either player's ELO — and a second
call with the same inviter id then returns none because the first call
resolved the request. -/
theorem C5_accept_private_invite :
    ∀ (s : EngineState) (now i : Nat) (w : String) (el : Nat), Inv s →
      (s.registry.find? (fun e => e.req.id == i) = none →
        acceptPrivateInvite now i w el s = (s, none))
    ∧ (∀ e, s.registry.find? (fun e => e.req.id == i) = some e →
        e.status ≠ Status.Waiting → acceptPrivateInvite now i w el s = (s, none))
    ∧ (∀ e, s.registry.find? (fun e => e.req.id == i) = some e →
        e.status = Status.Waiting →
        ∃ m, (acceptPrivateInvite now i w el s).2 = some m
          ∧ m.req_a = i ∧ m.req_b = s.nextId ∧ m.kind = MatchType.Invite
          ∧ statusOf (acceptPrivateInvite now i w el s).1 i = some Status.Matched
          ∧ statusOf (acceptPrivateInvite now i w el s).1 s.nextId =
              some Status.Matched
          ∧ (∃ e' ∈ (acceptPrivateInvite now i w el s).1.registry,
              e'.req.id = s.nextId ∧ e'.req.player = ⟨w, el, now⟩ ∧
              e'.status = Status.Matched)
          ∧ getMatch (acceptPrivateInvite now i w el s).1 m.id = some m
          ∧ (∀ (now' : Nat) (w' : String) (el' : Nat),
              (acceptPrivateInvite now' i w' el'
                (acceptPrivateInvite now i w el s).1).2 = none)) := by
  intro s now i w el hinv
  refine ⟨?_, ?_, ?_⟩
  · intro hfind
    unfold acceptPrivateInvite
    simp only [hfind]
  · intro e hfind hne
    unfold acceptPrivateInvite
    simp only [hfind]
    rw [if_neg hne]
  · intro e hfind hw
    obtain ⟨hemem, heid⟩ := mem_find?_id hfind
    have hres : acceptPrivateInvite now i w el s =
        (removeFromQueue
          { s with
            registry := (s.registry.map (fun e' =>
                if e'.req.id == i then
                  { e' with status := Status.Matched, matchRef := some s.nextMatchId }
                else e')) ++
              [⟨⟨s.nextId, ⟨w, el, now⟩, MatchType.Invite, none, none⟩,
                Status.Matched, some s.nextMatchId⟩]
            store := s.store ++ [⟨s.nextMatchId, i, s.nextId, MatchType.Invite, now⟩]
            nextId := s.nextId + 1
            nextMatchId := s.nextMatchId + 1 }
          e.req.match_type i,
        some ⟨s.nextMatchId, i, s.nextId, MatchType.Invite, now⟩) := by
      unfold acceptPrivateInvite
      simp only [hfind]
      rw [if_pos hw]
    have hfid : ∀ e' : RegEntry,
        ((if e'.req.id == i then
          { e' with status := Status.Matched, matchRef := some s.nextMatchId }
        else e') : RegEntry).req.id = e'.req.id := by
      intro e'
      by_cases hc : e'.req.id = i <;> simp [hc]
    have hfind2 : (acceptPrivateInvite now i w el s).1.registry.find?
        (fun e' => e'.req.id == i) =
        some { e with status := Status.Matched, matchRef := some s.nextMatchId } := by
      rw [hres]
      show ((removeFromQueue _ _ _).registry.find? _) = _
      rw [removeFromQueue_registry]
      show ((s.registry.map (fun e' =>
          if e'.req.id == i then
            { e' with status := Status.Matched, matchRef := some s.nextMatchId }
          else e') ++ _).find? (fun e' => e'.req.id == i)) = _
      rw [List.find?_append, find?_entry_map hfid, hfind]
      simp [heid]
    refine ⟨⟨s.nextMatchId, i, s.nextId, MatchType.Invite, now⟩, ?_, rfl, rfl, rfl,
      ?_, ?_, ?_, ?_, ?_⟩
    · rw [hres]
    · rw [statusOf_eq_some_iff]
      exact ⟨{ e with status := Status.Matched, matchRef := some s.nextMatchId },
        hfind2, rfl⟩
    · rw [statusOf_eq_some_iff, hres]
      refine ⟨⟨⟨s.nextId, ⟨w, el, now⟩, MatchType.Invite, none, none⟩,
        Status.Matched, some s.nextMatchId⟩, ?_, rfl⟩
      show ((removeFromQueue _ _ _).registry.find? _) = _
      rw [removeFromQueue_registry]
      show ((s.registry.map (fun e' =>
          if e'.req.id == i then
            { e' with status := Status.Matched, matchRef := some s.nextMatchId }
          else e') ++ _).find? (fun e' => e'.req.id == s.nextId)) = _
      rw [List.find?_append]
      have hnone : (s.registry.map (fun e' =>
          if e'.req.id == i then
            { e' with status := Status.Matched, matchRef := some s.nextMatchId }
          else e')).find? (fun e' => e'.req.id == s.nextId) = none := by
        rw [find?_entry_map hfid, List.find?_eq_none.2, Option.map_none']
        intro e' he'
        have := hinv.ids_lt e' he'
        simp
        omega
      rw [hnone]
      simp
    · rw [hres]
      refine ⟨⟨⟨s.nextId, ⟨w, el, now⟩, MatchType.Invite, none, none⟩,
        Status.Matched, some s.nextMatchId⟩, ?_, rfl, rfl, rfl⟩
      rw [removeFromQueue_registry]
      exact List.mem_append_right _ (by simp)
    · rw [hres]
      show getMatch (removeFromQueue _ _ _) _ = _
      unfold getMatch
      rw [removeFromQueue_store]
      show ((s.store ++ _).find? _) = _
      rw [List.find?_append]
      have hnone : s.store.find? (fun m' => m'.id ==
          (⟨s.nextMatchId, i, s.nextId, MatchType.Invite, now⟩ : MatchRecord).id) =
          none := by
        rw [List.find?_eq_none]
        intro m' hm'
        have := hinv.match_ids_lt m' hm'
        simp
        omega
      rw [hnone]
      simp
    · intro now' w' el'
      generalize hT : (acceptPrivateInvite now i w el s).1 = T at hfind2
      unfold acceptPrivateInvite
      simp only [hfind2]
      rw [if_neg (by simp)]

/-- Witness for C5: after an Invite join, accepting the invite yields a
Match pairing ids 0 and 1 despite a huge ELO gap, both requests are
Matched, and a replayed accept returns none. -/
theorem C5_witness :
    ∃ m, (acceptPrivateInvite 5 0 "0xE" 9000
        (runOps [Op.join 0 "0xD" 1500 MatchType.Invite (some "0xE") none]
          initState)).2 = some m
      ∧ m.req_a = 0
      ∧ m.req_b = (runOps [Op.join 0 "0xD" 1500 MatchType.Invite (some "0xE") none]
          initState).nextId
      ∧ m.kind = MatchType.Invite
      ∧ statusOf (acceptPrivateInvite 5 0 "0xE" 9000
          (runOps [Op.join 0 "0xD" 1500 MatchType.Invite (some "0xE") none]
            initState)).1 0 = some Status.Matched
      ∧ statusOf (acceptPrivateInvite 5 0 "0xE" 9000
          (runOps [Op.join 0 "0xD" 1500 MatchType.Invite (some "0xE") none]
            initState)).1
          (runOps [Op.join 0 "0xD" 1500 MatchType.Invite (some "0xE") none]
            initState).nextId = some Status.Matched
      ∧ (∃ e' ∈ (acceptPrivateInvite 5 0 "0xE" 9000
            (runOps [Op.join 0 "0xD" 1500 MatchType.Invite (some "0xE") none]
              initState)).1.registry,
          e'.req.id = (runOps [Op.join 0 "0xD" 1500 MatchType.Invite (some "0xE")
            none] initState).nextId ∧
          e'.req.player = ⟨"0xE", 9000, 5⟩ ∧ e'.status = Status.Matched)
      ∧ getMatch (acceptPrivateInvite 5 0 "0xE" 9000
          (runOps [Op.join 0 "0xD" 1500 MatchType.Invite (some "0xE") none]
            initState)).1 m.id = some m
      ∧ (∀ (now' : Nat) (w' : String) (el' : Nat),
          (acceptPrivateInvite now' 0 w' el'
            (acceptPrivateInvite 5 0 "0xE" 9000
              (runOps [Op.join 0 "0xD" 1500 MatchType.Invite (some "0xE") none]
                initState)).1).2 = none) :=
  (C5_accept_private_invite
    (runOps [Op.join 0 "0xD" 1500 MatchType.Invite (some "0xE") none] initState)
    5 0 "0xE" 9000
    (inv_reachable [Op.join 0 "0xD" 1500 MatchType.Invite (some "0xE") none])).2.2
    ⟨⟨0, ⟨"0xD", 1500, 0⟩, MatchType.Invite, some "0xE", none⟩, Status.Waiting, none⟩
    (by decide) (by decide)

/-- C6: `cancel_request` returns true exactly when a Waiting request was
found (it is then transitioned to Cancelled and removed from its
partition); it returns false, leaving the state unchanged, when the id is
unknown or the request already resolved; and an immediate second call on
the same id always returns false. -/
theorem C6_cancel_request :
    ∀ (s : EngineState) (i : Nat),
      ((cancelRequest i s).2 = true ↔
        ∃ e, s.registry.find? (fun e' => e'.req.id == i) = some e ∧
          e.status = Status.Waiting)
    ∧ (∀ e, s.registry.find? (fun e' => e'.req.id == i) = some e →
        e.status = Status.Waiting →
          statusOf (cancelRequest i s).1 i = some Status.Cancelled
        ∧ idInQueue (cancelRequest i s).1 e.req.match_type i = false)
    ∧ ((cancelRequest i s).2 = false → (cancelRequest i s).1 = s)
    ∧ (cancelRequest i (cancelRequest i s).1).2 = false := by
  intro s i
  have hfid : ∀ e' : RegEntry,
      ((if e'.req.id == i then { e' with status := Status.Cancelled } else e') :
        RegEntry).req.id = e'.req.id := by
    intro e'
    by_cases hc : e'.req.id = i <;> simp [hc]
  refine ⟨?_, ?_, ?_, ?_⟩
  · unfold cancelRequest
    cases hfind : s.registry.find? (fun e' => e'.req.id == i) with
    | none => simp
    | some e =>
      dsimp only
      by_cases hst : e.status = Status.Waiting
      · rw [if_pos hst]
        simp [hst]
      · rw [if_neg hst]
        simp [hst]
  · intro e hfind hst
    have heid : e.req.id = i := (mem_find?_id hfind).2
    have hres : (cancelRequest i s).1 =
        removeFromQueue
          { s with registry := s.registry.map (fun e' =>
              if e'.req.id == i then { e' with status := Status.Cancelled } else e') }
          e.req.match_type i := by
      unfold cancelRequest
      simp only [hfind]
      rw [if_pos hst]
    constructor
    · rw [hres, statusOf_eq_some_iff]
      refine ⟨{ e with status := Status.Cancelled }, ?_, rfl⟩
      rw [removeFromQueue_registry]
      show ((s.registry.map (fun e' =>
          if e'.req.id == i then { e' with status := Status.Cancelled } else e')).find?
          (fun e' => e'.req.id == i)) = _
      rw [find?_entry_map hfid, hfind]
      simp [heid]
    · rw [hres]
      exact idInQueue_remove_self _ _ _
  · intro hfalse
    unfold cancelRequest at hfalse ⊢
    cases hfind : s.registry.find? (fun e' => e'.req.id == i) with
    | none => rfl
    | some e =>
      rw [hfind] at hfalse
      dsimp only at hfalse ⊢
      by_cases hst : e.status = Status.Waiting
      · rw [if_pos hst] at hfalse
        exact Bool.noConfusion hfalse
      · rw [if_neg hst]
  · cases hfind : s.registry.find? (fun e' => e'.req.id == i) with
    | none =>
      have h1 : (cancelRequest i s).1 = s := by
        unfold cancelRequest
        rw [hfind]
      rw [h1]
      unfold cancelRequest
      rw [hfind]
    | some e =>
      by_cases hst : e.status = Status.Waiting
      · have hres : (cancelRequest i s).1 =
            removeFromQueue
              { s with registry := s.registry.map (fun e' =>
                  if e'.req.id == i then { e' with status := Status.Cancelled }
                  else e') }
              e.req.match_type i := by
          unfold cancelRequest
          simp only [hfind]
          rw [if_pos hst]
        have heid : e.req.id = i := (mem_find?_id hfind).2
        have hfind2 : (cancelRequest i s).1.registry.find?
            (fun e' => e'.req.id == i) = some { e with status := Status.Cancelled } := by
          rw [hres, removeFromQueue_registry]
          show ((s.registry.map (fun e' =>
              if e'.req.id == i then { e' with status := Status.Cancelled }
              else e')).find? (fun e' => e'.req.id == i)) = _
          rw [find?_entry_map hfid, hfind]
          simp [heid]
        generalize hT : (cancelRequest i s).1 = T at hfind2
        unfold cancelRequest
        simp only [hfind2]
        rw [if_neg (by simp)]
      · have h1 : (cancelRequest i s).1 = s := by
          unfold cancelRequest
          simp only [hfind]
          rw [if_neg hst]
        rw [h1]
        unfold cancelRequest
        simp only [hfind]
        rw [if_neg hst]

/-- Witness for C6: after an Invite join, cancelling request 0 succeeds
(status Cancelled, gone from its partition) and a second cancel of the same
id returns false. -/
theorem C6_witness :
    statusOf (cancelRequest 0
      (runOps [Op.join 0 "0xD" 1500 MatchType.Invite (some "0xE") none]
        initState)).1 0 = some Status.Cancelled
  ∧ idInQueue (cancelRequest 0
      (runOps [Op.join 0 "0xD" 1500 MatchType.Invite (some "0xE") none]
        initState)).1 MatchType.Invite 0 = false
  ∧ (cancelRequest 0 (cancelRequest 0
      (runOps [Op.join 0 "0xD" 1500 MatchType.Invite (some "0xE") none]
        initState)).1).2 = false := by
  have h := C6_cancel_request
    (runOps [Op.join 0 "0xD" 1500 MatchType.Invite (some "0xE") none] initState) 0
  have h2 := h.2.1
    ⟨⟨0, ⟨"0xD", 1500, 0⟩, MatchType.Invite, some "0xE", none⟩, Status.Waiting, none⟩
    (by decide) (by decide)
  exact ⟨h2.1, h2.2, h.2.2.2⟩

/-- C10: the HTTP status route (`routes.rs` lines 71–88) responds 200 with
the fixed status string "In queue" whenever the service returns any
QueueStatus — including a Matched resolution carrying a Match id — and 404
with "Request not found" exactly when the service returns nothing. -/
theorem C10_status_route :
    (∀ qs : QueueStatus, get_status (some qs) = (200, ⟨"In queue", some qs⟩))
  ∧ (get_status none = (404, ⟨"Request not found", none⟩))
  ∧ (∀ (s : EngineState) (i : Nat) (qs : QueueStatus),
      getQueueStatus s i = some qs →
      get_status (getQueueStatus s i) = (200, ⟨"In queue", some qs⟩)) := by
  refine ⟨fun qs => rfl, rfl, ?_⟩
  intro s i qs h
  rw [h]
  rfl

/-- Witness for C10 at a registry whose only request is already Matched:
the route still answers 200 "In queue", carrying the Match id. -/
theorem C10_witness :
    get_status (getQueueStatus
      ⟨[⟨⟨0, ⟨"0xA", 1500, 0⟩, MatchType.Open, none, none⟩,
         Status.Matched, some 7⟩], [], [], [], 1, 8⟩ 0) =
      (200, ⟨"In queue", some (QueueStatus.matched 7)⟩) :=
  C10_status_route.2.2
    ⟨[⟨⟨0, ⟨"0xA", 1500, 0⟩, MatchType.Open, none, none⟩,
       Status.Matched, some 7⟩], [], [], [], 1, 8⟩ 0
    (QueueStatus.matched 7) (by decide)

end StarkMate
